import Mathlib

/-!
The `graceful` supervisor and `server.New` of example-microservice.

A shallow embedding of `pkg/graceful/graceful.go`, of the `worker` of
`pkg/graceful/graceful_test.go` and of `server.New` from
`internal/server/server.go`.

`graceful.Run` is concurrent, so it is embedded as a transition system: the
state holds the program counter of the supervisor (the body of `Run` from
line 88 on), the program counter of each launched goroutine (lines 82-85),
the buffered channel `errChan`, the `sync.WaitGroup` counter, the goroutine
that closes `doneChan` (lines 92-95) and a discrete clock.  Time is counted in
nanoseconds since the call of `Run` (the unit of `time.Duration`).

Timing model: the clock may advance by one unit at any moment, so a statement
that can run may still be delayed for any length of time, and statements that
can run at the same instant run in any order, as the Go scheduler and `select`
leave open.  A timer never fires before its instant.  The state records how
much of the elapsed time went by while some statement could run (the
scheduling delay); an execution without such delay runs every statement the
instant it can run.

Signals: a delivered signal that `Run` hooks on ends the context while the
hook is in place; the call of `cancel()` at line 89 is the stop function of
`signal.NotifyContext` and removes the hook.  A signal that ends a process by
default and is not caught by the hook ends the process: nothing runs from then
on.
-/

namespace graceful

/-- A Go `error` that is not nil: either an ordinary error, identified by what
its `Error()` method prints, or the `ErrUngraceful` struct of graceful.go
lines 34-36. -/
inductive GoError where
  | errorString (s : String)
  | ErrUngraceful (OriginalError : Option GoError)

/-- A Go `error` interface value; `none` is `nil`. -/
abbrev error := Option GoError

/-- The constant `ungracefulMessage`, graceful.go line 47. -/
def ungracefulMessage : String := "one ore more goroutines failed to gracefully finish"

/-- `time.Second` in nanoseconds. -/
def time.Second : Int := 1000000000

/-- The constant `defaultTimeout`, graceful.go line 46. -/
def defaultTimeout : Int := 5 * time.Second

/-- The method `Error` (graceful.go lines 38-43); on an ordinary error it is
the text of the error, which is also what the verb `%v` prints. -/
def GoError.Error : GoError → String
  | .errorString s => s
  | .ErrUngraceful none => ungracefulMessage
  | .ErrUngraceful (some o) => o.Error ++ "; " ++ ungracefulMessage

/-- The signals named in the source or in its comments, and any other signal,
by number, that a Go program does not exit on when it is left unhooked
(SIGUSR1, SIGCHLD, ...). -/
inductive Signal where
  | SIGHUP
  | SIGINT
  | SIGKILL
  | SIGTERM
  | other (n : Nat)
  deriving DecidableEq, Repr

/-- The signal ends the process unless it is caught: SIGHUP, SIGINT and
SIGTERM make a Go program exit, SIGKILL ends any process. -/
def Signal.fatal : Signal → Bool
  | .other _ => false
  | _ => true

/-- The signal can be caught at all: every one but SIGKILL, for which
`signal.Notify` has no effect. -/
def Signal.catchable : Signal → Bool
  | .SIGKILL => false
  | _ => true

/-- Go standard library: `os.Interrupt = syscall.SIGINT`. -/
def os.Interrupt : Signal := Signal.SIGINT

/-- Go standard library: `os.Kill = syscall.SIGKILL`. -/
def os.Kill : Signal := Signal.SIGKILL

/-- A `context.Context` seen from outside: the instant at which its `Done`
channel is closed, if ever. -/
structure Context where
  doneAt : Option Nat

/-- The value of `context.Background()`: never done. -/
def Context.Background : Context := ⟨none⟩

/-- Whether the context is done at instant `t`. -/
def Context.isDone (c : Context) (t : Nat) : Bool :=
  match c.doneAt with
  | none => false
  | some d => decide (d ≤ t)

/-- The struct `Config`, graceful.go lines 20-28. -/
structure Config where
  Timeout : Int := 0
  Context : Option Context := none
  Signals : List Signal := []

/-- What the process receives from outside during the call: each delivery of
a signal with its instant. -/
structure Env where
  deliveries : List (Nat × Signal)

/-- Lines 65-67 and 72-74 of `Run`: the defaults written into `cfg`. -/
def Run.defaults (cfg : Config) : Config :=
  let cfg := if cfg.Timeout = 0 then { cfg with Timeout := defaultTimeout } else cfg
  let cfg := if cfg.Signals.length = 0 then
    { cfg with Signals := [os.Interrupt, os.Kill, Signal.SIGHUP] } else cfg
  cfg

/-- Lines 68-71 of `Run`: the base context. -/
def Run.base (cfg : Config) : Context :=
  match cfg.Context with
  | none => Context.Background
  | some c => c

/-- The signal is one the hook of line 75 catches: it is in the list passed
to `signal.NotifyContext` and can be caught. -/
def Run.hooked (cfg : Config) (sg : Signal) : Bool :=
  sg.catchable && (Run.defaults cfg).Signals.contains sg

/-- Line 75, `signal.NotifyContext(ctx, cfg.Signals...)`, before its stop
function is called: the context is done once the parent is done or one of the
hooked signals has arrived. -/
def Run.notifyDone (cfg : Config) (env : Env) (t : Nat) : Bool :=
  (Run.base cfg).isDone t ||
    env.deliveries.any fun p => decide (p.1 ≤ t) && Run.hooked cfg p.2

/-- A task `func(context.Context) error`, by what it does: `f now done` is
`some e` when the call returns `e` at instant `now`, the context it was given
being done or not at that instant, and `none` while it keeps running. -/
abbrev Func := Nat → Bool → Option error

/-- Program counter of one goroutine of lines 82-85: inside `fn(ctx)`, about
to send the result on `errChan`, about to call `wg.Done()`, finished. -/
inductive GState where
  | calling
  | sending (e : error)
  | sent
  | finished

/-- Program counter of the body of `Run` from line 88 on. -/
inductive Sup where
  | recv
  | atCancel (err : error)
  | atGo (err : error)
  | atSelect (err : error)
  | selecting (err : error) (deadline : Int)
  | returned (r : error)

/-- The goroutine of lines 92-95: not started, in `wg.Wait()`, past
`close(doneChan)`. -/
inductive Waiter where
  | notStarted
  | waiting
  | closed

/-- State of one call of `Run`: the clock `now`; `late`, the part of `now` that
went by while some statement could run (kept for the record, no statement
reads it); `stoppedAt`, the instant of the call of `cancel()` once it has
run; the goroutines, the channel, the `WaitGroup` counter, the supervisor and
the waiting goroutine. -/
structure State where
  now : Nat
  late : Nat
  stoppedAt : Option Nat
  gs : List GState
  errChan : List error
  wg : Nat
  sup : Sup
  waiter : Waiter

/-- The statements of `Run` and of its goroutines. -/
inductive DAct where
  | ret (i : Nat)
  | send (i : Nat)
  | wgDone (i : Nat)
  | recv
  | cancel
  | goWait
  | arm
  | waitDone
  | selDone
  | selTimeout
  deriving DecidableEq

/-- A step: a statement, or the clock advancing by one unit. -/
inductive Action where
  | d (a : DAct)
  | tick
  deriving DecidableEq

/-- Whether `ctx` (the context of line 75) is done in state `s`: its stop
function was called (line 89), or a hooked signal or the parent ended it. -/
def ctxDone (cfg : Config) (env : Env) (s : State) : Bool :=
  s.stoppedAt.isSome || Run.notifyDone cfg env s.now

/-- The delivery `p` is caught by the hook of line 75: the signal is hooked
and arrives no later than the call of the stop function, if that was called. -/
def caught (cfg : Config) (stoppedAt : Option Nat) (p : Nat × Signal) : Bool :=
  Run.hooked cfg p.2 &&
    match stoppedAt with
    | none => true
    | some c => decide (p.1 ≤ c)

/-- The process has been ended by a signal: one that ends a process by default
has been delivered and was not caught. -/
def killed (cfg : Config) (env : Env) (s : State) : Bool :=
  env.deliveries.any fun p => decide (p.1 ≤ s.now) && p.2.fatal && !caught cfg s.stoppedAt p

/-- One statement.
* `ret i`: `fn(ctx)` of goroutine `i` returns (line 83, right-hand side);
* `send i`: `errChan <- ...` (line 83), possible while the buffer, of
  capacity `len(funcs)` (line 78), has room;
* `wgDone i`: `wg.Done()` (line 84);
* `recv`: `err := <-errChan` (line 88);
* `cancel`: `cancel()` (line 89), which ends the context and removes the hook
  on the signals;
* `goWait`: lines 91-95, the goroutine waiting on `wg` is started;
* `arm`: `time.After(cfg.Timeout)` of line 98 is evaluated on entering `select`;
* `waitDone`: `wg.Wait()` returns, the counter being zero, and `doneChan` is closed;
* `selDone`: the case of line 103; `selTimeout`: the case of line 98. -/
def stepD (cfg : Config) (funcs : List Func) (env : Env) (s : State) : DAct → Option State
  | .ret i =>
    match s.gs[i]?, funcs[i]? with
    | some .calling, some f =>
      match f s.now (ctxDone cfg env s) with
      | some e => some { s with gs := s.gs.set i (.sending e) }
      | none => none
    | _, _ => none
  | .send i =>
    match s.gs[i]? with
    | some (.sending e) =>
      if s.errChan.length < funcs.length then
        some { s with errChan := s.errChan ++ [e], gs := s.gs.set i .sent }
      else none
    | _ => none
  | .wgDone i =>
    match s.gs[i]? with
    | some .sent => some { s with gs := s.gs.set i .finished, wg := s.wg - 1 }
    | _ => none
  | .recv =>
    match s.sup, s.errChan with
    | .recv, e :: rest => some { s with errChan := rest, sup := .atCancel e }
    | _, _ => none
  | .cancel =>
    match s.sup with
    | .atCancel e => some { s with stoppedAt := some s.now, sup := .atGo e }
    | _ => none
  | .goWait =>
    match s.sup with
    | .atGo e => some { s with waiter := .waiting, sup := .atSelect e }
    | _ => none
  | .arm =>
    match s.sup with
    | .atSelect e => some { s with sup := .selecting e (s.now + (Run.defaults cfg).Timeout) }
    | _ => none
  | .waitDone =>
    match s.waiter with
    | .waiting => if s.wg = 0 then some { s with waiter := .closed } else none
    | _ => none
  | .selDone =>
    match s.sup, s.waiter with
    | .selecting e _, .closed => some { s with sup := .returned e }
    | _, _ => none
  | .selTimeout =>
    match s.sup with
    | .selecting e dl =>
      if dl ≤ (s.now : Int) then some { s with sup := .returned (some (.ErrUngraceful e)) }
      else none
    | _ => none

/-- Every statement that exists in a call with `n` tasks. -/
def statements (n : Nat) : List DAct :=
  [.recv, .cancel, .goWait, .arm, .waitDone, .selDone, .selTimeout] ++
    (List.range n).flatMap fun i => [.ret i, .send i, .wgDone i]

/-- No statement can run in `s`. -/
def quiescent (cfg : Config) (funcs : List Func) (env : Env) (s : State) : Bool :=
  (statements funcs.length).all fun a => (stepD cfg funcs env s a).isNone

/-- One step of the system: nothing once the process is ended; else a
statement, or the clock advancing, which counts as scheduling delay when some
statement could have run. -/
def step (cfg : Config) (funcs : List Func) (env : Env) (s : State) (a : Action) :
    Option State :=
  if killed cfg env s then none
  else
    match a with
    | .d a => stepD cfg funcs env s a
    | .tick =>
      some { s with
        now := s.now + 1
        late := if quiescent cfg funcs env s then s.late else s.late + 1 }

/-- The state of `Run` on reaching line 88: the loop of lines 80-86 has
launched one goroutine per task and added each to `wg`. -/
def Run.init (funcs : List Func) : State :=
  { now := 0
    late := 0
    stoppedAt := none
    gs := funcs.map fun _ => GState.calling
    errChan := []
    wg := funcs.length
    sup := .recv
    waiter := .notStarted }

/-- Run a list of steps from `s`; `none` when one of them cannot be taken. -/
def exec (cfg : Config) (funcs : List Func) (env : Env) (s : State) : List Action → Option State
  | [] => some s
  | a :: as =>
    match step cfg funcs env s a with
    | some s1 => exec cfg funcs env s1 as
    | none => none

/-- State `t` can be reached from state `s`. -/
def ReachableFrom (cfg : Config) (funcs : List Func) (env : Env) (s t : State) : Prop :=
  ∃ as, exec cfg funcs env s as = some t

/-- State `s` occurs in some execution of `Run(cfg, funcs...)`. -/
def Reachable (cfg : Config) (funcs : List Func) (env : Env) (s : State) : Prop :=
  ReachableFrom cfg funcs env (Run.init funcs) s

/-- Some execution of `Run(cfg, funcs...)` returns `r`. -/
def Run.Returns (cfg : Config) (funcs : List Func) (env : Env) (r : error) : Prop :=
  ∃ s, Reachable cfg funcs env s ∧ s.sup = .returned r

/-- The struct `worker` of graceful_test.go lines 77-81. -/
structure worker where
  endAfter : Int := 0
  ungraceful : Bool := false
  err : error := none

/-- The method `worker.Run` of graceful_test.go lines 83-98; the timer of
line 89 is started when the goroutine is, at instant 0. -/
def worker.Run (w : worker) : Func := fun now done =>
  if w.ungraceful then none
  else if w.endAfter ≠ 0 then
    if w.endAfter ≤ (now : Int) || done then some w.err else none
  else
    if done then some w.err else none

/-- The goroutine has sent its result on `errChan`. -/
def GState.written : GState → Bool
  | .sent => true
  | .finished => true
  | _ => false

/-- The goroutine has not yet called `wg.Done()`. -/
def GState.live : GState → Bool
  | .finished => false
  | _ => true

/-- How far the supervisor is: 0 at line 88, 1 before `cancel()`, 2 before
line 91, 3 before `select`, 4 inside `select`, 5 returned. -/
def Sup.phase : Sup → Nat
  | .recv => 0
  | .atCancel _ => 1
  | .atGo _ => 2
  | .atSelect _ => 3
  | .selecting _ _ => 4
  | .returned _ => 5

/-- Number of results the supervisor has taken from `errChan`. -/
def Sup.received (p : Sup) : Nat := if p.phase = 0 then 0 else 1

/-- The bookkeeping invariant of `Run`: one goroutine per task; the
`WaitGroup` counter counts the goroutines that have not called `Done`; the
results in `errChan` plus the one taken by the supervisor are those written;
the stop function has been called and the waiting goroutine started exactly
from the corresponding lines on; `doneChan` is closed only at counter zero. -/
structure Inv (funcs : List Func) (s : State) : Prop where
  len : s.gs.length = funcs.length
  wg : s.wg = s.gs.countP GState.live
  chan : s.errChan.length + s.sup.received = s.gs.countP GState.written
  stop : s.stoppedAt.isSome = decide (2 ≤ s.sup.phase)
  wait : s.waiter = Waiter.notStarted ↔ s.sup.phase ≤ 2
  closed : s.waiter = Waiter.closed → s.wg = 0

/-- Statements the goroutine still has to run. -/
def GState.rank : GState → Nat
  | .calling => 3
  | .sending _ => 2
  | .sent => 1
  | .finished => 0

/-- Statements the waiting goroutine still has to run. -/
def Waiter.rank : Waiter → Nat
  | .notStarted => 2
  | .waiting => 1
  | .closed => 0

/-- A bound on the number of statements that can still run from `s`. -/
def State.fuel (s : State) : Nat :=
  (s.gs.map GState.rank).sum + (5 - s.sup.phase) + s.waiter.rank

/-- The predicate `J` on states is kept along executions without scheduling
delay and holds only of states in which the bookkeeping invariant holds and
the process has not been ended. -/
structure Keeps (cfg : Config) (funcs : List Func) (env : Env) (J : State → Prop) : Prop where
  inv : ∀ s, J s → Inv funcs s
  alive : ∀ s, J s → killed cfg env s = false
  stmt : ∀ s a t, J s → stepD cfg funcs env s a = some t → J t
  tick : ∀ s, J s → quiescent cfg funcs env s = true → J { s with now := s.now + 1 }

/-- A call whose race is decided, for executions with scheduling delay at
most `L`: task `m` returns `em` from instant `t1` on and not before, no other
task returns up to instant `t1 + L` (the context being ended only from outside
until then), once the context is cancelled every task still running returns
from instant `H` on, and `H + L` lies before the earliest instant at which the
timer of line 98 can fire. -/
structure Decided (cfg : Config) (funcs : List Func) (env : Env)
    (m t1 : Nat) (em : error) (H L : Nat) : Prop where
  hm : m < funcs.length
  others : ∀ (i : Nat) (f : Func), funcs[i]? = some f → i ≠ m →
    ∀ t, t ≤ t1 + L → f t (Run.notifyDone cfg env t) = none
  before : ∀ f : Func, funcs[m]? = some f → ∀ t, t < t1 → f t (Run.notifyDone cfg env t) = none
  win : ∀ f : Func, funcs[m]? = some f →
    ∀ t, t1 ≤ t → t ≤ t1 + L → f t (Run.notifyDone cfg env t) = some em
  stopAll : ∀ (i : Nat) (f : Func), funcs[i]? = some f → ∀ t, H ≤ t → (f t true).isSome = true
  hH : t1 ≤ H
  hT : (H : Int) + (L : Int) < (t1 : Int) + (Run.defaults cfg).Timeout

/-- The invariant of a decided race, in states with scheduling delay at most
`L`: until the timer is armed the clock is at most `t1` plus the delay so far;
until the first result is taken only task `m` moves, not before `t1`; the
supervisor holds `em` from then on and stops the context no earlier than
`t1`; the timer is armed for no earlier than `t1 + Timeout`; inside `select`
the clock is at most `H` plus the delay so far; what `Run` returns is `em`. -/
structure Race (cfg : Config) (funcs : List Func)
    (m t1 : Nat) (em : error) (H : Nat) (s : State) : Prop where
  inv : Inv funcs s
  clock : s.sup.phase ≤ 3 → s.now ≤ t1 + s.late
  early : s.sup.phase ≤ 1 →
    ∀ i : Nat, i ≠ m → i < funcs.length → s.gs[i]? = some .calling
  atRecv : s.sup = .recv →
    (s.gs[m]? = some .calling ∧ s.errChan = []) ∨
    (t1 ≤ s.now ∧ s.gs[m]? = some (.sending em) ∧ s.errChan = []) ∨
    (t1 ≤ s.now ∧ (s.gs[m]? = some .sent ∨ s.gs[m]? = some .finished) ∧ s.errChan = [em])
  mid : ∀ e, (s.sup = .atCancel e ∨ s.sup = .atGo e ∨ s.sup = .atSelect e) →
    e = em ∧ t1 ≤ s.now
  stop : ∀ c, s.stoppedAt = some c → t1 ≤ c
  sel : ∀ e dl, s.sup = .selecting e dl →
    e = em ∧ (t1 : Int) + (Run.defaults cfg).Timeout ≤ dl ∧ s.now ≤ H + s.late
  ret : ∀ r, s.sup = .returned r → r = em

/-- Every delivered signal that ends a process by default is hooked by `Run`
and arrives no later than instant `c`: no signal ends the process when the
stop function is called at `c` or later. -/
def Run.safeUntil (cfg : Config) (env : Env) (c : Nat) : Prop :=
  ∀ p ∈ env.deliveries, p.2.fatal = true → Run.hooked cfg p.2 = true ∧ p.1 ≤ c

/-- The invariant of a call in which the supervisor took its first result `e`
at instant `t0` or later while goroutine `i` is inside a call that never
returns: the goroutine stays there, the context is stopped no earlier than
`t0`, the timer is armed for no earlier than `t0 + Timeout`, and `Run` can
only return `ErrUngraceful{e}`, not before the timer has fired. -/
structure Stuck (cfg : Config) (funcs : List Func) (i t0 : Nat) (e : error)
    (s : State) : Prop where
  inv : Inv funcs s
  calling : s.gs[i]? = some .calling
  later : t0 ≤ s.now
  stop : ∀ c, s.stoppedAt = some c → t0 ≤ c
  sup : s.sup = .atCancel e ∨ s.sup = .atGo e ∨ s.sup = .atSelect e ∨
    (∃ dl, s.sup = .selecting e dl ∧ (t0 : Int) + (Run.defaults cfg).Timeout ≤ dl) ∨
    (s.sup = .returned (some (.ErrUngraceful e)) ∧
      (t0 : Int) + (Run.defaults cfg).Timeout ≤ (s.now : Int))

/-- Whether goroutine `i` has sent on `errChan`, as 0 or 1. -/
def wrote (s : State) (i : Nat) : Nat :=
  match s.gs[i]? with
  | some g => if g.written then 1 else 0
  | none => 0

end graceful

namespace server

/-- The struct `Config`, server.go lines 29-32; `Port` carries the tag
`validate:"required"`. -/
structure Config where
  Address : String := ""
  Port : Int := 0

/-- A value implementing the interface `usersRepo` (server.go lines 40-44),
by identity only. -/
structure usersRepo where
  id : Nat

/-- The struct `Dependencies`, server.go lines 35-37; the interface field is
`none` when nil and carries the tag `validate:"required"`. -/
structure Dependencies where
  UsersRepo : Option usersRepo := none

/-- The struct `Server`, server.go lines 22-26, without the router. -/
structure Server where
  c : Config
  d : Dependencies

/-- A validation failure: the field and the tag that rejected it. -/
structure FieldError where
  field : String
  tag : String

/-- The tag `required` of go-playground/validator on an `int` field: the
value must not be the zero value of its type. -/
def requiredInt (v : Int) : Bool := v != 0

/-- The tag `required` of go-playground/validator on an interface field: the
value must not be nil. -/
def requiredInterface {α : Type} (v : Option α) : Bool := v.isSome

/-- The call `validate.Struct(c)` on a `Config` (line 50): `Port` is the only
tagged field. -/
def validateConfig (c : Config) : Option FieldError :=
  if requiredInt c.Port then none else some ⟨"Port", "required"⟩

/-- The call `validate.Struct(d)` on a `Dependencies` (line 55). -/
def validateDependencies (d : Dependencies) : Option FieldError :=
  if requiredInterface d.UsersRepo then none else some ⟨"UsersRepo", "required"⟩

/-- The function `New`, server.go lines 47-74. -/
def New (c : Config) (d : Dependencies) : Except FieldError Server :=
  match validateConfig c with
  | some err => .error err
  | none =>
    match validateDependencies d with
    | some err => .error err
    | none =>
      let c := if c.Port = 0 then { c with Port := 80 } else c
      .ok { c := c, d := d }

end server

namespace graceful

section Lists

variable {α : Type}

theorem countP_set_add (p : α → Bool) (l : List α) (i : Nat) (x y : α)
    (h : l[i]? = some x) :
    (l.set i y).countP p + (if p x then 1 else 0) = l.countP p + (if p y then 1 else 0) := by
  induction l generalizing i with
  | nil => simp at h
  | cons a l ih =>
    cases i with
    | zero =>
      simp at h
      subst h
      simp [List.countP_cons]
      omega
    | succ i =>
      simp at h
      have := ih i h
      simp [List.countP_cons]
      omega

end Lists

section Bookkeeping

variable {cfg : Config} {funcs : List Func} {env : Env}

theorem countP_replicate_calling (p : GState → Bool) (n : Nat) :
    (List.replicate n GState.calling).countP p
      = if p GState.calling then n else 0 := by
  induction n with
  | zero => simp
  | succ n ih =>
    simp only [List.replicate_succ, List.countP_cons, ih]
    split <;> simp

theorem Inv_init (funcs : List Func) : Inv funcs (Run.init funcs) := by
  refine ⟨?_, ?_, ?_, ?_, ?_, ?_⟩
  · simp [Run.init]
  · simp [Run.init, countP_replicate_calling, GState.live]
  · simp [Run.init, countP_replicate_calling, GState.written, Sup.received, Sup.phase]
  · simp [Run.init, Sup.phase]
  · simp [Run.init, Sup.phase]
  · simp [Run.init]

theorem Inv_stepD {s t : State} {a : DAct} (hi : Inv funcs s)
    (h : stepD cfg funcs env s a = some t) : Inv funcs t := by
  obtain ⟨hlen, hwg, hchan, hstop, hwait, hclosed⟩ := hi
  cases a with
  | ret i =>
    simp only [stepD] at h
    split at h
    · rename_i f hg hf
      split at h
      · rename_i e he
        cases h
        have hc1 := countP_set_add GState.live s.gs i .calling (.sending e) hg
        have hc2 := countP_set_add GState.written s.gs i .calling (.sending e) hg
        simp [GState.live, GState.written] at hc1 hc2
        exact ⟨by simpa using hlen, by simpa [hc1] using hwg, by simpa [hc2] using hchan,
          hstop, hwait, hclosed⟩
      · cases h
    · cases h
  | send i =>
    simp only [stepD] at h
    split at h
    · rename_i e hg
      split at h
      · cases h
        have hc1 := countP_set_add GState.live s.gs i (.sending e) .sent hg
        have hc2 := countP_set_add GState.written s.gs i (.sending e) .sent hg
        simp [GState.live, GState.written] at hc1 hc2
        refine ⟨by simpa using hlen, by simpa [hc1] using hwg, ?_, hstop, hwait, hclosed⟩
        simp only [List.length_append, List.length_singleton, hc2]
        omega
      · cases h
    · cases h
  | wgDone i =>
    simp only [stepD] at h
    split at h
    · rename_i hg
      cases h
      have hc1 := countP_set_add GState.live s.gs i .sent .finished hg
      have hc2 := countP_set_add GState.written s.gs i .sent .finished hg
      simp [GState.live, GState.written] at hc1 hc2
      refine ⟨by simpa using hlen, ?_, by simpa [hc2] using hchan, hstop, hwait, ?_⟩
      · show s.wg - 1 = List.countP GState.live (s.gs.set i GState.finished)
        omega
      · intro hw
        show s.wg - 1 = 0
        have := hclosed hw
        omega
    · cases h
  | recv =>
    simp only [stepD] at h
    split at h
    · rename_i e rest hs hc
      cases h
      simp only [hs, hc, Sup.received, Sup.phase, List.length_cons] at hchan hstop hwait
      refine ⟨hlen, hwg, ?_, ?_, ?_, hclosed⟩
      · simp only [Sup.received, Sup.phase]
        simpa using hchan
      · simpa [Sup.phase] using hstop
      · simpa [Sup.phase] using hwait
    · cases h
  | cancel =>
    simp only [stepD] at h
    split at h
    · rename_i e hs
      cases h
      simp only [hs, Sup.received, Sup.phase] at hchan hstop hwait
      refine ⟨hlen, hwg, ?_, ?_, ?_, hclosed⟩
      · simpa [Sup.received, Sup.phase] using hchan
      · simp [Sup.phase]
      · simpa [Sup.phase] using hwait
    · cases h
  | goWait =>
    simp only [stepD] at h
    split at h
    · rename_i e hs
      cases h
      simp only [hs, Sup.received, Sup.phase] at hchan hstop hwait
      refine ⟨hlen, hwg, ?_, ?_, ?_, ?_⟩
      · simpa [Sup.received, Sup.phase] using hchan
      · simpa [Sup.phase] using hstop
      · simp [Sup.phase]
      · simp
    · cases h
  | arm =>
    simp only [stepD] at h
    split at h
    · rename_i e hs
      cases h
      simp only [hs, Sup.received, Sup.phase] at hchan hstop hwait
      refine ⟨hlen, hwg, ?_, ?_, ?_, hclosed⟩
      · simpa [Sup.received, Sup.phase] using hchan
      · simpa [Sup.phase] using hstop
      · simpa [Sup.phase] using hwait
    · cases h
  | waitDone =>
    simp only [stepD] at h
    split at h
    · rename_i hw
      split at h
      · rename_i h0
        cases h
        refine ⟨hlen, hwg, hchan, hstop, ?_, fun _ => h0⟩
        simp only [hw] at hwait
        simpa using hwait
      · cases h
    · cases h
  | selDone =>
    simp only [stepD] at h
    split at h
    · rename_i e dl hs hw
      cases h
      simp only [hs, Sup.received, Sup.phase] at hchan hstop hwait
      refine ⟨hlen, hwg, ?_, ?_, ?_, hclosed⟩
      · simpa [Sup.received, Sup.phase] using hchan
      · simpa [Sup.phase] using hstop
      · simpa [Sup.phase] using hwait
    · cases h
  | selTimeout =>
    simp only [stepD] at h
    split at h
    · rename_i e dl hs
      split at h
      · cases h
        simp only [hs, Sup.received, Sup.phase] at hchan hstop hwait
        refine ⟨hlen, hwg, ?_, ?_, ?_, hclosed⟩
        · simpa [Sup.received, Sup.phase] using hchan
        · simpa [Sup.phase] using hstop
        · simpa [Sup.phase] using hwait
      · cases h
    · cases h

end Bookkeeping

section Executions

variable {cfg : Config} {funcs : List Func} {env : Env}

theorem sum_map_set_add {α : Type} (f : α → Nat) (l : List α) (i : Nat) (x y : α)
    (h : l[i]? = some x) :
    ((l.set i y).map f).sum + f x = (l.map f).sum + f y := by
  induction l generalizing i with
  | nil => simp at h
  | cons a l ih =>
    cases i with
    | zero =>
      simp at h
      subst h
      simp
      omega
    | succ i =>
      simp at h
      have := ih i h
      simp only [List.set_cons_succ, List.map_cons, List.sum_cons]
      omega

theorem stepD_now {s t : State} {a : DAct} (h : stepD cfg funcs env s a = some t) :
    t.now = s.now := by
  cases a <;> simp only [stepD] at h <;> (repeat (split at h)) <;> first | cases h; rfl | cases h

theorem stepD_fuel {s t : State} {a : DAct} (hi : Inv funcs s)
    (h : stepD cfg funcs env s a = some t) : t.fuel < s.fuel := by
  have hw := hi.wait
  cases a with
  | ret i =>
    simp only [stepD] at h
    split at h
    · rename_i f hg hf
      split at h
      · rename_i e he
        cases h
        have := sum_map_set_add GState.rank s.gs i .calling (.sending e) hg
        simp only [GState.rank] at this
        simp only [State.fuel]
        omega
      · cases h
    · cases h
  | send i =>
    simp only [stepD] at h
    split at h
    · rename_i e hg
      split at h
      · cases h
        have := sum_map_set_add GState.rank s.gs i (.sending e) .sent hg
        simp only [GState.rank] at this
        simp only [State.fuel]
        omega
      · cases h
    · cases h
  | wgDone i =>
    simp only [stepD] at h
    split at h
    · rename_i hg
      cases h
      have := sum_map_set_add GState.rank s.gs i .sent .finished hg
      simp only [GState.rank] at this
      simp only [State.fuel]
      omega
    · cases h
  | recv =>
    simp only [stepD] at h
    split at h
    · rename_i e rest hs hc
      cases h
      simp only [State.fuel, hs, Sup.phase]
      omega
    · cases h
  | cancel =>
    simp only [stepD] at h
    split at h
    · rename_i e hs
      cases h
      simp only [State.fuel, hs, Sup.phase]
      omega
    · cases h
  | goWait =>
    simp only [stepD] at h
    split at h
    · rename_i e hs
      cases h
      have hn : s.waiter = Waiter.notStarted := hw.2 (by simp [hs, Sup.phase])
      simp only [State.fuel, hs, hn, Sup.phase, Waiter.rank]
      omega
    · cases h
  | arm =>
    simp only [stepD] at h
    split at h
    · rename_i e hs
      cases h
      simp only [State.fuel, hs, Sup.phase]
      omega
    · cases h
  | waitDone =>
    simp only [stepD] at h
    split at h
    · rename_i hw
      split at h
      · cases h
        simp only [State.fuel, hw, Waiter.rank]
        omega
      · cases h
    · cases h
  | selDone =>
    simp only [stepD] at h
    split at h
    · rename_i e dl hs hw
      cases h
      simp only [State.fuel, hs, Sup.phase]
      omega
    · cases h
  | selTimeout =>
    simp only [stepD] at h
    split at h
    · rename_i e dl hs
      split at h
      · cases h
        simp only [State.fuel, hs, Sup.phase]
        omega
      · cases h
    · cases h

theorem stepD_late {s t : State} {a : DAct} (h : stepD cfg funcs env s a = some t) :
    t.late = s.late := by
  cases a <;> simp only [stepD] at h <;> (repeat (split at h)) <;> first | cases h; rfl | cases h

/-- What a step that was taken has done. -/
theorem step_cases {s t : State} {a : Action} (h : step cfg funcs env s a = some t) :
    killed cfg env s = false ∧
    ((∃ b, a = .d b ∧ stepD cfg funcs env s b = some t) ∨
      (a = .tick ∧ t = { s with
        now := s.now + 1
        late := if quiescent cfg funcs env s then s.late else s.late + 1 })) := by
  unfold step at h
  split at h
  · cases h
  · rename_i hk
    refine ⟨by simpa using hk, ?_⟩
    cases a with
    | d b => exact Or.inl ⟨b, rfl, h⟩
    | tick =>
      simp only [Option.some.injEq] at h
      exact Or.inr ⟨rfl, h.symm⟩

theorem step_d {s : State} (hk : killed cfg env s = false) (a : DAct) :
    step cfg funcs env s (.d a) = stepD cfg funcs env s a := by
  simp [step, hk]

theorem step_tick {s : State} (hk : killed cfg env s = false) :
    step cfg funcs env s .tick = some { s with
      now := s.now + 1
      late := if quiescent cfg funcs env s then s.late else s.late + 1 } := by
  simp [step, hk]

theorem Inv_tick {s : State} (hi : Inv funcs s) (n l : Nat) :
    Inv funcs { s with now := n, late := l } :=
  ⟨hi.len, hi.wg, hi.chan, hi.stop, hi.wait, hi.closed⟩

theorem Inv_step {s t : State} {a : Action} (hi : Inv funcs s)
    (h : step cfg funcs env s a = some t) : Inv funcs t := by
  rcases (step_cases h).2 with ⟨b, -, hb⟩ | ⟨-, rfl⟩
  · exact Inv_stepD hi hb
  · exact Inv_tick hi _ _

theorem step_late {s t : State} {a : Action} (h : step cfg funcs env s a = some t) :
    s.late ≤ t.late := by
  rcases (step_cases h).2 with ⟨b, -, hb⟩ | ⟨-, rfl⟩
  · rw [stepD_late hb]
  · show s.late ≤ if quiescent cfg funcs env s then s.late else s.late + 1
    split <;> omega

theorem exec_append (s : State) (as bs : List Action) :
    exec cfg funcs env s (as ++ bs)
      = (exec cfg funcs env s as).bind fun t => exec cfg funcs env t bs := by
  induction as generalizing s with
  | nil => simp [exec]
  | cons a as ih =>
    simp only [List.cons_append, exec]
    cases step cfg funcs env s a with
    | none => simp
    | some s1 => simpa using ih s1

theorem exec_induct (P : State → Prop)
    (hstep : ∀ s a t, P s → step cfg funcs env s a = some t → P t)
    {s t : State} {as : List Action} (hs : P s)
    (h : exec cfg funcs env s as = some t) : P t := by
  induction as generalizing s with
  | nil =>
    simp only [exec] at h
    cases h
    exact hs
  | cons a as ih =>
    simp only [exec] at h
    split at h
    · rename_i s1 h1
      exact ih (hstep s a s1 hs h1) h
    · cases h

theorem ReachableFrom.refl (s : State) : ReachableFrom cfg funcs env s s := ⟨[], rfl⟩

theorem ReachableFrom.trans {s t u : State} (h1 : ReachableFrom cfg funcs env s t)
    (h2 : ReachableFrom cfg funcs env t u) : ReachableFrom cfg funcs env s u := by
  obtain ⟨as, ha⟩ := h1
  obtain ⟨bs, hb⟩ := h2
  exact ⟨as ++ bs, by simp [exec_append, ha, hb]⟩

theorem ReachableFrom.one {s t : State} {a : Action}
    (h : step cfg funcs env s a = some t) : ReachableFrom cfg funcs env s t :=
  ⟨[a], by simp [exec, h]⟩

theorem ReachableFrom.induct (P : State → Prop)
    (hstep : ∀ s a t, P s → step cfg funcs env s a = some t → P t)
    {s t : State} (hs : P s) (h : ReachableFrom cfg funcs env s t) : P t := by
  obtain ⟨as, ha⟩ := h
  exact exec_induct P hstep hs ha

theorem Inv_from {s t : State} (hi : Inv funcs s) (h : ReachableFrom cfg funcs env s t) :
    Inv funcs t :=
  ReachableFrom.induct (Inv funcs) (fun _ _ _ hs hst => Inv_step hs hst) hi h

theorem late_from {s t : State} (h : ReachableFrom cfg funcs env s t) : s.late ≤ t.late :=
  ReachableFrom.induct (fun u => s.late ≤ u.late)
    (fun _ _ _ hu hst => Nat.le_trans hu (step_late hst)) (Nat.le_refl _) h

theorem Inv_reachable {s : State} (h : Reachable cfg funcs env s) : Inv funcs s :=
  Inv_from (Inv_init funcs) h

end Executions

section Inversion

variable {cfg : Config} {funcs : List Func} {env : Env}

/-- What a statement that ran has done. -/
theorem stepD_cases {s t : State} {a : DAct} (h : stepD cfg funcs env s a = some t) :
    (∃ i f e, a = .ret i ∧ s.gs[i]? = some .calling ∧ funcs[i]? = some f ∧
        f s.now (ctxDone cfg env s) = some e ∧ t = { s with gs := s.gs.set i (.sending e) }) ∨
    (∃ i e, a = .send i ∧ s.gs[i]? = some (.sending e) ∧ s.errChan.length < funcs.length ∧
        t = { s with errChan := s.errChan ++ [e], gs := s.gs.set i .sent }) ∨
    (∃ i, a = .wgDone i ∧ s.gs[i]? = some .sent ∧
        t = { s with gs := s.gs.set i .finished, wg := s.wg - 1 }) ∨
    (∃ e rest, a = .recv ∧ s.sup = .recv ∧ s.errChan = e :: rest ∧
        t = { s with errChan := rest, sup := .atCancel e }) ∨
    (∃ e, a = .cancel ∧ s.sup = .atCancel e ∧ t = { s with stoppedAt := some s.now, sup := .atGo e }) ∨
    (∃ e, a = .goWait ∧ s.sup = .atGo e ∧
        t = { s with waiter := .waiting, sup := .atSelect e }) ∨
    (∃ e, a = .arm ∧ s.sup = .atSelect e ∧
        t = { s with sup := .selecting e (s.now + (Run.defaults cfg).Timeout) }) ∨
    (a = .waitDone ∧ s.waiter = .waiting ∧ s.wg = 0 ∧ t = { s with waiter := .closed }) ∨
    (∃ e dl, a = .selDone ∧ s.sup = .selecting e dl ∧ s.waiter = .closed ∧
        t = { s with sup := .returned e }) ∨
    (∃ e dl, a = .selTimeout ∧ s.sup = .selecting e dl ∧ dl ≤ (s.now : Int) ∧
        t = { s with sup := .returned (some (.ErrUngraceful e)) }) := by
  cases a with
  | ret i =>
    simp only [stepD] at h
    split at h
    · rename_i f hg hf
      split at h
      · rename_i e he
        cases h
        exact Or.inl ⟨i, f, e, rfl, hg, hf, he, rfl⟩
      · cases h
    · cases h
  | send i =>
    simp only [stepD] at h
    split at h
    · rename_i e hg
      split at h
      · rename_i hl
        cases h
        exact Or.inr (Or.inl ⟨i, e, rfl, hg, hl, rfl⟩)
      · cases h
    · cases h
  | wgDone i =>
    simp only [stepD] at h
    split at h
    · rename_i hg
      cases h
      exact Or.inr (Or.inr (Or.inl ⟨i, rfl, hg, rfl⟩))
    · cases h
  | recv =>
    simp only [stepD] at h
    split at h
    · rename_i e rest hs hc
      cases h
      exact Or.inr (Or.inr (Or.inr (Or.inl ⟨e, rest, rfl, hs, hc, rfl⟩)))
    · cases h
  | cancel =>
    simp only [stepD] at h
    split at h
    · rename_i e hs
      cases h
      exact Or.inr (Or.inr (Or.inr (Or.inr (Or.inl ⟨e, rfl, hs, rfl⟩))))
    · cases h
  | goWait =>
    simp only [stepD] at h
    split at h
    · rename_i e hs
      cases h
      exact Or.inr (Or.inr (Or.inr (Or.inr (Or.inr (Or.inl ⟨e, rfl, hs, rfl⟩)))))
    · cases h
  | arm =>
    simp only [stepD] at h
    split at h
    · rename_i e hs
      cases h
      exact Or.inr (Or.inr (Or.inr (Or.inr (Or.inr (Or.inr (Or.inl ⟨e, rfl, hs, rfl⟩))))))
    · cases h
  | waitDone =>
    simp only [stepD] at h
    split at h
    · rename_i hw
      split at h
      · rename_i h0
        cases h
        exact Or.inr (Or.inr (Or.inr (Or.inr (Or.inr (Or.inr (Or.inr
          (Or.inl ⟨rfl, hw, h0, rfl⟩)))))))
      · cases h
    · cases h
  | selDone =>
    simp only [stepD] at h
    split at h
    · rename_i e dl hs hw
      cases h
      exact Or.inr (Or.inr (Or.inr (Or.inr (Or.inr (Or.inr (Or.inr
        (Or.inr (Or.inl ⟨e, dl, rfl, hs, hw, rfl⟩))))))))
    · cases h
  | selTimeout =>
    simp only [stepD] at h
    split at h
    · rename_i e dl hs
      split at h
      · rename_i hd
        cases h
        exact Or.inr (Or.inr (Or.inr (Or.inr (Or.inr (Or.inr (Or.inr
          (Or.inr (Or.inr ⟨e, dl, rfl, hs, hd, rfl⟩))))))))
      · cases h
    · cases h

/-- The supervisor never goes back. -/
theorem stepD_phase {s t : State} {a : DAct} (h : stepD cfg funcs env s a = some t) :
    s.sup.phase ≤ t.sup.phase := by
  rcases stepD_cases h with ⟨i, f, e, -, -, -, -, rfl⟩ | ⟨i, e, -, -, -, rfl⟩ | ⟨i, -, -, rfl⟩ |
    ⟨e, rest, -, hs, -, rfl⟩ | ⟨e, -, hs, rfl⟩ | ⟨e, -, hs, rfl⟩ | ⟨e, -, hs, rfl⟩ |
    ⟨-, -, -, rfl⟩ | ⟨e, dl, -, hs, -, rfl⟩ | ⟨e, dl, -, hs, -, rfl⟩ <;>
    simp [*, Sup.phase]

theorem step_phase {s t : State} {a : Action} (h : step cfg funcs env s a = some t) :
    s.sup.phase ≤ t.sup.phase := by
  rcases (step_cases h).2 with ⟨b, -, hb⟩ | ⟨-, rfl⟩
  · exact stepD_phase hb
  · exact Nat.le_refl _

theorem phase_from {s t : State} (h : ReachableFrom cfg funcs env s t) :
    s.sup.phase ≤ t.sup.phase :=
  ReachableFrom.induct (fun u => s.sup.phase ≤ u.sup.phase)
    (fun _ _ _ hu hst => Nat.le_trans hu (step_phase hst)) (Nat.le_refl _) h

theorem now_from {s t : State} (h : ReachableFrom cfg funcs env s t) : s.now ≤ t.now := by
  refine ReachableFrom.induct (fun u => s.now ≤ u.now) ?_ (Nat.le_refl _) h
  intro u a v hu hst
  rcases (step_cases hst).2 with ⟨b, -, hb⟩ | ⟨-, rfl⟩
  · have := stepD_now hb
    show s.now ≤ v.now
    omega
  · show s.now ≤ u.now + 1
    omega

/-- A statement does not end the process: the stop function is called at the
current instant, so what was caught stays caught. -/
theorem killed_stepD {s t : State} {a : DAct} (hi : Inv funcs s)
    (h : stepD cfg funcs env s a = some t) : killed cfg env t = killed cfg env s := by
  rcases stepD_cases h with ⟨i, f, e, -, -, -, -, rfl⟩ | ⟨i, e, -, -, -, rfl⟩ | ⟨i, -, -, rfl⟩ |
    ⟨e, rest, -, hs, -, rfl⟩ | ⟨e, -, hs, rfl⟩ | ⟨e, -, hs, rfl⟩ | ⟨e, -, hs, rfl⟩ |
    ⟨-, -, -, rfl⟩ | ⟨e, dl, -, hs, -, rfl⟩ | ⟨e, dl, -, hs, -, rfl⟩
  case inr.inr.inr.inr.inl =>
    have hnone : s.stoppedAt = none := by
      have := hi.stop
      rw [hs] at this
      simpa [Sup.phase] using this
    unfold killed
    congr 1
    funext p
    by_cases hp : p.1 ≤ s.now <;> simp [caught, hp, hnone]
  all_goals rfl

/-- Inside `select` the supervisor keeps its error and its deadline until it
returns. -/
theorem selecting_from {s t : State} {e : error} {dl : Int}
    (hs : s.sup = .selecting e dl) (h : ReachableFrom cfg funcs env s t) :
    t.sup = .selecting e dl ∨ ∃ r, t.sup = .returned r := by
  refine ReachableFrom.induct (fun u => u.sup = .selecting e dl ∨ ∃ r, u.sup = .returned r)
    ?_ (Or.inl hs) h
  intro u a v hu hst
  rcases (step_cases hst).2 with ⟨b, -, hb⟩ | ⟨-, rfl⟩
  swap
  · exact hu
  · rcases stepD_cases hb with ⟨i, f, e, -, -, -, -, rfl⟩ | ⟨i, e, -, -, -, rfl⟩ |
      ⟨i, -, -, rfl⟩ | ⟨e, rest, -, hs, -, rfl⟩ | ⟨e, -, hs, rfl⟩ | ⟨e, -, hs, rfl⟩ |
      ⟨e, -, hs, rfl⟩ | ⟨-, -, -, rfl⟩ | ⟨e, dl, -, hs, -, rfl⟩ | ⟨e, dl, -, hs, -, rfl⟩
    · exact hu
    · exact hu
    · exact hu
    · rcases hu with hu | ⟨r, hu⟩ <;> simp [hs] at hu
    · rcases hu with hu | ⟨r, hu⟩ <;> simp [hs] at hu
    · rcases hu with hu | ⟨r, hu⟩ <;> simp [hs] at hu
    · rcases hu with hu | ⟨r, hu⟩ <;> simp [hs] at hu
    · exact hu
    · exact Or.inr ⟨_, rfl⟩
    · exact Or.inr ⟨_, rfl⟩

end Inversion

section Quiescence

variable {cfg : Config} {funcs : List Func} {env : Env}

theorem mem_statements {s t : State} {a : DAct} (hi : Inv funcs s)
    (h : stepD cfg funcs env s a = some t) : a ∈ statements funcs.length := by
  have hlen := hi.len
  have hidx : ∀ i x, s.gs[i]? = some x → i < funcs.length := by
    intro i x hx
    have := (List.getElem?_eq_some_iff.1 hx).1
    omega
  cases a with
  | ret i =>
    simp only [stepD] at h
    split at h
    · rename_i f hg hf
      simp only [statements, List.mem_append, List.mem_flatMap, List.mem_range]
      exact Or.inr ⟨i, hidx i _ hg, by simp⟩
    · cases h
  | send i =>
    simp only [stepD] at h
    split at h
    · rename_i e hg
      simp only [statements, List.mem_append, List.mem_flatMap, List.mem_range]
      exact Or.inr ⟨i, hidx i _ hg, by simp⟩
    · cases h
  | wgDone i =>
    simp only [stepD] at h
    split at h
    · rename_i hg
      simp only [statements, List.mem_append, List.mem_flatMap, List.mem_range]
      exact Or.inr ⟨i, hidx i _ hg, by simp⟩
    · cases h
  | recv => simp [statements]
  | cancel => simp [statements]
  | goWait => simp [statements]
  | arm => simp [statements]
  | waitDone => simp [statements]
  | selDone => simp [statements]
  | selTimeout => simp [statements]

theorem quiescent_stepD {s : State} (hi : Inv funcs s)
    (hq : quiescent cfg funcs env s = true) (a : DAct) :
    stepD cfg funcs env s a = none := by
  cases h : stepD cfg funcs env s a with
  | none => rfl
  | some t =>
    have hm := mem_statements hi h
    simp only [quiescent, List.all_eq_true] at hq
    have := hq a hm
    simp [h] at this

theorem not_quiescent {s : State} (hq : quiescent cfg funcs env s = false) :
    ∃ a t, stepD cfg funcs env s a = some t := by
  simp only [quiescent, List.all_eq_false] at hq
  obtain ⟨a, _, ha⟩ := hq
  cases h : stepD cfg funcs env s a with
  | none => simp [h] at ha
  | some t => exact ⟨a, t, h⟩

theorem tick_of_quiescent {s : State} (hk : killed cfg env s = false)
    (hq : quiescent cfg funcs env s = true) :
    step cfg funcs env s .tick = some { s with now := s.now + 1 } := by
  simp [step, hk, hq]

theorem quiesce_aux {J : State → Prop} (hJ : Keeps cfg funcs env J) (n : Nat) :
    ∀ s : State, s.fuel ≤ n → J s →
    ∃ t, ReachableFrom cfg funcs env s t ∧ J t ∧ quiescent cfg funcs env t = true ∧
      t.now = s.now ∧ t.late = s.late := by
  induction n with
  | zero =>
    intro s hn hs
    cases hq : quiescent cfg funcs env s with
    | true => exact ⟨s, ReachableFrom.refl s, hs, hq, rfl, rfl⟩
    | false =>
      obtain ⟨a, t, h⟩ := not_quiescent hq
      have := stepD_fuel (hJ.inv s hs) h
      omega
  | succ n ih =>
    intro s hn hs
    cases hq : quiescent cfg funcs env s with
    | true => exact ⟨s, ReachableFrom.refl s, hs, hq, rfl, rfl⟩
    | false =>
      obtain ⟨a, t, h⟩ := not_quiescent hq
      have hf := stepD_fuel (hJ.inv s hs) h
      obtain ⟨u, hu, hju, hqu, hnow, hlate⟩ := ih t (by omega) (hJ.stmt s a t hs h)
      have h1 : ReachableFrom cfg funcs env s t :=
        ReachableFrom.one (a := .d a) (by rw [step_d (hJ.alive s hs)]; exact h)
      exact ⟨u, h1.trans hu, hju, hqu, by rw [hnow, stepD_now h], by rw [hlate, stepD_late h]⟩

/-- From any state the statements that can run do run out, the clock standing
still. -/
theorem quiesce {J : State → Prop} (hJ : Keeps cfg funcs env J) {s : State} (hs : J s) :
    ∃ t, ReachableFrom cfg funcs env s t ∧ J t ∧ quiescent cfg funcs env t = true ∧
      t.now = s.now ∧ t.late = s.late :=
  quiesce_aux hJ s.fuel s (Nat.le_refl _) hs

end Quiescence

section Progress

variable {cfg : Config} {funcs : List Func} {env : Env}

theorem returns_of_selecting {J : State → Prop} (hJ : Keeps cfg funcs env J) (n : Nat) :
    ∀ (s : State) (e : error) (dl : Int),
    J s → s.sup = .selecting e dl → quiescent cfg funcs env s = true →
    dl - (s.now : Int) ≤ n →
    ∃ t r, ReachableFrom cfg funcs env s t ∧ J t ∧ t.sup = .returned r ∧ t.late = s.late := by
  induction n with
  | zero =>
    intro s e dl hj hs hq hd
    have hno := quiescent_stepD (hJ.inv s hj) hq .selTimeout
    have hle : dl ≤ (s.now : Int) := by omega
    simp [stepD, hs, hle] at hno
  | succ n ih =>
    intro s e dl hj hs hq hd
    have htick := tick_of_quiescent (hJ.alive s hj) hq
    have hj1 : J { s with now := s.now + 1 } := hJ.tick s hj hq
    obtain ⟨t, ht, hjt, hqt, hnow, hlate⟩ := quiesce hJ hj1
    have hst : ReachableFrom cfg funcs env s t := (ReachableFrom.one htick).trans ht
    rcases selecting_from (s := { s with now := s.now + 1 }) hs ht with h | ⟨r, h⟩
    · have hnow1 : t.now = s.now + 1 := hnow
      obtain ⟨u, r, hu, hju, hr, hl⟩ := ih t e dl hjt h hqt (by omega)
      exact ⟨u, r, hst.trans hu, hju, hr, by rw [hl, hlate]⟩
    · exact ⟨t, r, hst, hjt, h, hlate⟩

/-- Once the supervisor has received a first result, `Run` can return without
any scheduling delay, as long as the process is not ended: the timer of line
98 bounds the wait. -/
theorem eventually_returns {J : State → Prop} (hJ : Keeps cfg funcs env J) {s : State}
    (hj : J s) (hp : 1 ≤ s.sup.phase) :
    ∃ t r, ReachableFrom cfg funcs env s t ∧ J t ∧ t.sup = .returned r ∧ t.late = s.late := by
  obtain ⟨u, hu, hju, hq, -, hlate⟩ := quiesce hJ hj
  have hiu := hJ.inv u hju
  have hpu := phase_from hu
  cases hsu : u.sup with
  | recv =>
    have h0 : u.sup.phase = 0 := by rw [hsu]; rfl
    omega
  | atCancel e =>
    have hno := quiescent_stepD hiu hq .cancel
    simp [stepD, hsu] at hno
  | atGo e =>
    have hno := quiescent_stepD hiu hq .goWait
    simp [stepD, hsu] at hno
  | atSelect e =>
    have hno := quiescent_stepD hiu hq .arm
    simp [stepD, hsu] at hno
  | selecting e dl =>
    obtain ⟨t, r, ht, hjt, hr, hl⟩ :=
      returns_of_selecting hJ (dl - (u.now : Int)).toNat u e dl hju hsu hq (by omega)
    exact ⟨t, r, hu.trans ht, hjt, hr, by rw [hl, hlate]⟩
  | returned r => exact ⟨u, r, hu, hju, hsu, hlate⟩

end Progress

section Busy

variable {cfg : Config} {funcs : List Func} {env : Env}

theorem countP_lt_length_of {p : GState → Bool} {gs : List GState} {i : Nat} {x : GState}
    (hg : gs[i]? = some x) (hx : p x = false) : gs.countP p < gs.length := by
  have hle := List.countP_le_length p (l := gs)
  rcases Nat.lt_or_ge (gs.countP p) gs.length with h | h
  · exact h
  · have heq : gs.countP p = gs.length := Nat.le_antisymm hle h
    have hall := List.countP_eq_length.1 heq
    have hmem : x ∈ gs := List.mem_iff_getElem?.2 ⟨i, hg⟩
    have := hall x hmem
    simp [hx] at this

theorem live_or_none (gs : List GState) :
    gs.countP GState.live = 0 ∨ ∃ (i : Nat) (x : GState), gs[i]? = some x ∧ x.live = true := by
  by_cases h : gs.countP GState.live = 0
  · exact Or.inl h
  · right
    have hpos : 0 < gs.countP GState.live := Nat.pos_of_ne_zero h
    obtain ⟨x, hx, hl⟩ := List.countP_pos_iff.1 hpos
    obtain ⟨i, hi⟩ := List.mem_iff_getElem?.1 hx
    exact ⟨i, x, hi, hl⟩

/-- A goroutine about to send finds room in `errChan`. -/
theorem room_of_sending {s : State} (hi : Inv funcs s) {i : Nat} {e : error}
    (hg : s.gs[i]? = some (.sending e)) : s.errChan.length < funcs.length := by
  have h1 := countP_lt_length_of (p := GState.written) hg rfl
  have h2 := hi.chan
  have h3 := hi.len
  omega

theorem stepD_ret_some {s : State} {i : Nat} {f : Func} {e : error}
    (hg : s.gs[i]? = some .calling) (hf : funcs[i]? = some f)
    (he : f s.now (ctxDone cfg env s) = some e) :
    stepD cfg funcs env s (.ret i) = some { s with gs := s.gs.set i (.sending e) } := by
  simp only [stepD, hg, hf, he]

/-- Inside `select`, once the context is cancelled, some statement can run as
long as not everything has stopped, provided every task still inside its call
returns at this instant. -/
theorem selecting_busy {s : State} (hi : Inv funcs s) {e : error} {dl : Int}
    (hs : s.sup = .selecting e dl)
    (hall : ∀ (i : Nat) (f : Func), funcs[i]? = some f → (f s.now true).isSome = true) :
    ∃ a t, stepD cfg funcs env s a = some t := by
  suffices h : ∃ a, (stepD cfg funcs env s a).isSome = true by
    obtain ⟨a, ha⟩ := h
    obtain ⟨t, ht⟩ := Option.isSome_iff_exists.1 ha
    exact ⟨a, t, ht⟩
  have hstop : s.stoppedAt.isSome = true := by
    have := hi.stop
    rw [hs] at this
    simpa [Sup.phase] using this
  have hctx : ctxDone cfg env s = true := by simp [ctxDone, hstop]
  rcases live_or_none s.gs with h0 | ⟨i, x, hg, hl⟩
  · have hwg : s.wg = 0 := by rw [hi.wg, h0]
    have hw : s.waiter ≠ .notStarted := by
      intro hw
      have := hi.wait.1 hw
      simp [hs, Sup.phase] at this
    cases hwt : s.waiter with
    | notStarted => exact absurd hwt hw
    | waiting => exact ⟨.waitDone, by simp [stepD, hwt, hwg]⟩
    | closed => exact ⟨.selDone, by simp [stepD, hs, hwt]⟩
  · have hlt : i < funcs.length := by
      have := (List.getElem?_eq_some_iff.1 hg).1
      have := hi.len
      omega
    cases x with
    | calling =>
      have hf : funcs[i]? = some funcs[i] := List.getElem?_eq_getElem hlt
      have hsome := hall i funcs[i] hf
      obtain ⟨v, hv⟩ := Option.isSome_iff_exists.1 hsome
      rw [← hctx] at hv
      exact ⟨.ret i, by rw [stepD_ret_some hg hf hv]; rfl⟩
    | sending e1 =>
      have hroom := room_of_sending hi hg
      exact ⟨.send i, by simp [stepD, hg, hroom]⟩
    | sent => exact ⟨.wgDone i, by simp [stepD, hg]⟩
    | finished => simp [GState.live] at hl

end Busy

section RaceProof

variable {cfg : Config} {funcs : List Func} {env : Env}
variable {m t1 H L : Nat} {em : error}

theorem ctxDone_early {s : State} (hi : Inv funcs s) (hp : s.sup.phase ≤ 1) :
    ctxDone cfg env s = Run.notifyDone cfg env s.now := by
  have hstop : s.stoppedAt.isSome = false := by
    have := hi.stop
    rw [this]
    simp
    omega
  simp [ctxDone, hstop]

theorem getElem?_lt_of_inv {s : State} (hi : Inv funcs s) {i : Nat} {x : GState}
    (hg : s.gs[i]? = some x) : i < s.gs.length ∧ i < funcs.length := by
  have h1 := (List.getElem?_eq_some_iff.1 hg).1
  have h2 := hi.len
  exact ⟨h1, by omega⟩

theorem Race_init (hd : Decided cfg funcs env m t1 em H L) :
    Race cfg funcs m t1 em H (Run.init funcs) := by
  have hcall : ∀ i : Nat, i < funcs.length → (Run.init funcs).gs[i]? = some .calling := by
    intro i hi
    simp [Run.init, hi]
  refine ⟨Inv_init funcs, ?_, ?_, ?_, ?_, ?_, ?_, ?_⟩
  · intro _
    exact Nat.zero_le _
  · intro _ i _ hi
    exact hcall i hi
  · intro _
    exact Or.inl ⟨hcall m hd.hm, rfl⟩
  · intro e h
    simp [Run.init] at h
  · intro c h
    simp [Run.init] at h
  · intro e dl h
    simp [Run.init] at h
  · intro r h
    simp [Run.init] at h

/-- While the supervisor waits at line 88 and nothing can run, the winning
task has not yet returned: the clock is before `t1`. -/
theorem Race_waits (hd : Decided cfg funcs env m t1 em H L) {s : State}
    (hr : Race cfg funcs m t1 em H s) (hl : s.late ≤ L)
    (hq : quiescent cfg funcs env s = true) (hsu : s.sup = .recv) : s.now < t1 := by
  have hi := hr.inv
  have hp : s.sup.phase ≤ 1 := by rw [hsu]; simp [Sup.phase]
  have hp3 : s.sup.phase ≤ 3 := by omega
  have hnow := hr.clock hp3
  have hctx : ctxDone cfg env s = Run.notifyDone cfg env s.now := ctxDone_early hi hp
  have hmlt := hd.hm
  have hpos : 0 < funcs.length := by omega
  have hfm : funcs[m]? = some funcs[m] := List.getElem?_eq_getElem hmlt
  by_contra hge
  have hge1 : t1 ≤ s.now := by omega
  rcases hr.atRecv hsu with ⟨hg, hc⟩ | ⟨_, hg, hc⟩ | ⟨_, hg, hc⟩
  · have hw := hd.win _ hfm s.now hge1 (by omega)
    rw [← hctx] at hw
    have := quiescent_stepD hi hq (.ret m)
    rw [stepD_ret_some hg hfm hw] at this
    cases this
  · have := quiescent_stepD hi hq (.send m)
    simp [stepD, hg, hc, hpos] at this
  · have := quiescent_stepD hi hq .recv
    simp [stepD, hsu, hc] at this

/-- The clock advances while nothing can run. -/
theorem Race_tick_idle (hd : Decided cfg funcs env m t1 em H L) {s t : State}
    (hr : Race cfg funcs m t1 em H s) (hl : s.late ≤ L)
    (hq : quiescent cfg funcs env s = true)
    (hit : Inv funcs t) (hsup : t.sup = s.sup) (hgs : t.gs = s.gs)
    (hch : t.errChan = s.errChan) (hst : t.stoppedAt = s.stoppedAt)
    (htn : t.now = s.now + 1) (htl : t.late = s.late) :
    Race cfg funcs m t1 em H t := by
  have hi := hr.inv
  cases hsu : s.sup with
  | recv =>
    have hlt : s.now < t1 := Race_waits hd hr hl hq hsu
    have hp : s.sup.phase ≤ 1 := by rw [hsu]; simp [Sup.phase]
    refine ⟨hit, ?_, ?_, ?_, ?_, ?_, ?_, ?_⟩
    · intro _
      rw [htn, htl]
      omega
    · intro _
      rw [hgs]
      exact hr.early hp
    · intro _
      rw [hgs, hch, htn]
      rcases hr.atRecv hsu with h | ⟨h, _⟩ | ⟨h, _⟩
      · exact Or.inl h
      · omega
      · omega
    · intro e h
      rw [hsup, hsu] at h
      simp at h
    · intro c h
      rw [hst] at h
      exact hr.stop c h
    · intro e dl h
      rw [hsup, hsu] at h
      simp at h
    · intro r h
      rw [hsup, hsu] at h
      simp at h
  | atCancel e =>
    have hno := quiescent_stepD hi hq .cancel
    simp [stepD, hsu] at hno
  | atGo e =>
    have hno := quiescent_stepD hi hq .goWait
    simp [stepD, hsu] at hno
  | atSelect e =>
    have hno := quiescent_stepD hi hq .arm
    simp [stepD, hsu] at hno
  | selecting e dl =>
    obtain ⟨he, hdl, hnow⟩ := hr.sel e dl hsu
    have hlt : s.now < H := by
      by_contra hge
      have hge1 : H ≤ s.now := by omega
      obtain ⟨a, u, hau⟩ := @selecting_busy cfg funcs env _ hi _ _ hsu
        (fun i f hf => hd.stopAll i f hf s.now hge1)
      have := quiescent_stepD hi hq a
      rw [hau] at this
      cases this
    refine ⟨hit, ?_, ?_, ?_, ?_, ?_, ?_, ?_⟩
    · intro h
      rw [hsup, hsu] at h
      simp [Sup.phase] at h
    · intro h
      rw [hsup, hsu] at h
      simp [Sup.phase] at h
    · intro h
      rw [hsup, hsu] at h
      simp at h
    · intro e1 h
      rw [hsup, hsu] at h
      simp at h
    · intro c h
      rw [hst] at h
      exact hr.stop c h
    · intro e1 dl1 h
      rw [hsup, hsu] at h
      simp only [Sup.selecting.injEq] at h
      obtain ⟨rfl, rfl⟩ := h
      exact ⟨he, hdl, by omega⟩
    · intro r h
      rw [hsup, hsu] at h
      simp at h
  | returned r =>
    refine ⟨hit, ?_, ?_, ?_, ?_, ?_, ?_, ?_⟩
    · intro h
      rw [hsup, hsu] at h
      simp [Sup.phase] at h
    · intro h
      rw [hsup, hsu] at h
      simp [Sup.phase] at h
    · intro h
      rw [hsup, hsu] at h
      simp at h
    · intro e1 h
      rw [hsup, hsu] at h
      simp at h
    · intro c h
      rw [hst] at h
      exact hr.stop c h
    · intro e1 dl1 h
      rw [hsup, hsu] at h
      simp at h
    · intro r1 h
      rw [hsup] at h
      exact hr.ret r1 h

/-- The clock advances while some statement could run: one more unit of
scheduling delay. -/
theorem Race_tick_late {s t : State}
    (hr : Race cfg funcs m t1 em H s)
    (hit : Inv funcs t) (hsup : t.sup = s.sup) (hgs : t.gs = s.gs)
    (hch : t.errChan = s.errChan) (hst : t.stoppedAt = s.stoppedAt)
    (htn : t.now = s.now + 1) (htl : t.late = s.late + 1) :
    Race cfg funcs m t1 em H t := by
  refine ⟨hit, ?_, ?_, ?_, ?_, ?_, ?_, ?_⟩
  · intro h
    rw [hsup] at h
    have := hr.clock h
    rw [htn, htl]
    omega
  · intro h
    rw [hsup] at h
    rw [hgs]
    exact hr.early h
  · intro h
    rw [hsup] at h
    rw [hgs, hch, htn]
    rcases hr.atRecv h with h1 | ⟨h1, h2⟩ | ⟨h1, h2⟩
    · exact Or.inl h1
    · exact Or.inr (Or.inl ⟨by omega, h2⟩)
    · exact Or.inr (Or.inr ⟨by omega, h2⟩)
  · intro e h
    rw [hsup] at h
    obtain ⟨h1, h2⟩ := hr.mid e h
    exact ⟨h1, by omega⟩
  · intro c h
    rw [hst] at h
    exact hr.stop c h
  · intro e dl h
    rw [hsup] at h
    obtain ⟨h1, h2, h3⟩ := hr.sel e dl h
    exact ⟨h1, h2, by omega⟩
  · intro r h
    rw [hsup] at h
    exact hr.ret r h

theorem Race_tick (hd : Decided cfg funcs env m t1 em H L) {s : State}
    (hr : Race cfg funcs m t1 em H s)
    (hl : (if quiescent cfg funcs env s then s.late else s.late + 1) ≤ L) :
    Race cfg funcs m t1 em H { s with
      now := s.now + 1
      late := if quiescent cfg funcs env s then s.late else s.late + 1 } := by
  have hit := Inv_tick hr.inv (s.now + 1)
    (if quiescent cfg funcs env s then s.late else s.late + 1)
  cases hq : quiescent cfg funcs env s with
  | true =>
    rw [hq] at hl hit
    simp only [if_true] at hl hit ⊢
    exact Race_tick_idle hd hr hl hq hit rfl rfl rfl rfl rfl rfl
  | false =>
    rw [hq] at hit
    simp only [Bool.false_eq_true, if_false] at hit ⊢
    exact Race_tick_late hr hit rfl rfl rfl rfl rfl rfl

end RaceProof

section RaceStep

variable {cfg : Config} {funcs : List Func} {env : Env}
variable {m t1 H L : Nat} {em : error}

theorem Race_stepD (hd : Decided cfg funcs env m t1 em H L) {s t : State} {a : DAct}
    (hr : Race cfg funcs m t1 em H s) (hl : s.late ≤ L)
    (h : stepD cfg funcs env s a = some t) :
    Race cfg funcs m t1 em H t := by
  have hi := hr.inv
  have hit := Inv_stepD hi h
  have hclock1 : s.sup.phase ≤ 1 → s.now ≤ t1 + L := by
    intro hp
    have := hr.clock (by omega)
    omega
  rcases stepD_cases h with ⟨i, f, e, -, hg, hf, he, rfl⟩ | ⟨i, e, -, hg, hroom, rfl⟩ |
    ⟨i, -, hg, rfl⟩ | ⟨e, rest, -, hs, hc, rfl⟩ | ⟨e, -, hs, rfl⟩ | ⟨e, -, hs, rfl⟩ |
    ⟨e, -, hs, rfl⟩ | ⟨-, hw, hwg, rfl⟩ | ⟨e, dl, -, hs, hw, rfl⟩ | ⟨e, dl, -, hs, hdl, rfl⟩
  · -- `fn(ctx)` returns
    have hkey : s.sup.phase ≤ 1 → i = m := by
      intro hp
      by_contra hne
      have hnone := hd.others i f hf hne s.now (hclock1 hp)
      rw [ctxDone_early hi hp, hnone] at he
      cases he
    refine ⟨hit, hr.clock, ?_, ?_, hr.mid, hr.stop, hr.sel, hr.ret⟩
    · intro hp
      have him := hkey hp
      subst him
      intro j hj hjl
      show (s.gs.set i _)[j]? = _
      rw [List.getElem?_set_ne (Ne.symm hj)]
      exact hr.early hp j hj hjl
    · intro hs
      have hs0 : s.sup = .recv := hs
      have hp : s.sup.phase ≤ 1 := by rw [hs0]; simp [Sup.phase]
      have him := hkey hp
      subst him
      rw [ctxDone_early hi hp] at he
      have hnow1 : t1 ≤ s.now := by
        by_contra hne
        have hlt : s.now < t1 := by omega
        rw [hd.before f hf s.now hlt] at he
        cases he
      have hwin := hd.win f hf s.now hnow1 (hclock1 hp)
      rw [hwin] at he
      cases he
      rcases hr.atRecv hs0 with ⟨-, hc⟩ | ⟨-, hg2, -⟩ | ⟨-, hg2 | hg2, -⟩
      · refine Or.inr (Or.inl ⟨hnow1, ?_, hc⟩)
        show (s.gs.set i _)[i]? = _
        rw [List.getElem?_set_self (getElem?_lt_of_inv hi hg).1]
      · rw [hg] at hg2; cases hg2
      · rw [hg] at hg2; cases hg2
      · rw [hg] at hg2; cases hg2
  · -- the send on `errChan`
    have hkey : s.sup.phase ≤ 1 → i = m := by
      intro hp
      by_contra hne
      have := hr.early hp i hne (getElem?_lt_of_inv hi hg).2
      rw [hg] at this
      cases this
    refine ⟨hit, hr.clock, ?_, ?_, hr.mid, hr.stop, hr.sel, hr.ret⟩
    · intro hp
      have him := hkey hp
      subst him
      intro j hj hjl
      show (s.gs.set i _)[j]? = _
      rw [List.getElem?_set_ne (Ne.symm hj)]
      exact hr.early hp j hj hjl
    · intro hs
      have hs0 : s.sup = .recv := hs
      have hp : s.sup.phase ≤ 1 := by rw [hs0]; simp [Sup.phase]
      have him := hkey hp
      subst him
      rcases hr.atRecv hs0 with ⟨hg2, -⟩ | ⟨hnow1, hg2, hc⟩ | ⟨-, hg2 | hg2, -⟩
      · rw [hg] at hg2; cases hg2
      · rw [hg] at hg2
        cases hg2
        refine Or.inr (Or.inr ⟨hnow1, Or.inl ?_, ?_⟩)
        · show (s.gs.set i _)[i]? = _
          rw [List.getElem?_set_self (getElem?_lt_of_inv hi hg).1]
        · show s.errChan ++ [em] = [em]
          rw [hc]
          rfl
      · rw [hg] at hg2; cases hg2
      · rw [hg] at hg2; cases hg2
  · -- `wg.Done()`
    have hkey : s.sup.phase ≤ 1 → i = m := by
      intro hp
      by_contra hne
      have := hr.early hp i hne (getElem?_lt_of_inv hi hg).2
      rw [hg] at this
      cases this
    refine ⟨hit, hr.clock, ?_, ?_, hr.mid, hr.stop, hr.sel, hr.ret⟩
    · intro hp
      have him := hkey hp
      subst him
      intro j hj hjl
      show (s.gs.set i _)[j]? = _
      rw [List.getElem?_set_ne (Ne.symm hj)]
      exact hr.early hp j hj hjl
    · intro hs
      have hs0 : s.sup = .recv := hs
      have hp : s.sup.phase ≤ 1 := by rw [hs0]; simp [Sup.phase]
      have him := hkey hp
      subst him
      rcases hr.atRecv hs0 with ⟨hg2, -⟩ | ⟨-, hg2, -⟩ | ⟨hnow1, -, hc⟩
      · rw [hg] at hg2; cases hg2
      · rw [hg] at hg2; cases hg2
      · refine Or.inr (Or.inr ⟨hnow1, Or.inr ?_, hc⟩)
        show (s.gs.set i _)[i]? = _
        rw [List.getElem?_set_self (getElem?_lt_of_inv hi hg).1]
  · -- the receive of line 88
    have hp : s.sup.phase ≤ 1 := by rw [hs]; simp [Sup.phase]
    refine ⟨hit, fun _ => hr.clock (by omega), fun _ => hr.early hp, ?_, ?_, hr.stop, ?_, ?_⟩
    · intro h
      simp at h
    · intro e1 h
      simp at h
      subst h
      rcases hr.atRecv hs with ⟨-, hc2⟩ | ⟨-, -, hc2⟩ | ⟨hnow1, -, hc2⟩
      · rw [hc] at hc2; cases hc2
      · rw [hc] at hc2; cases hc2
      · rw [hc] at hc2
        cases hc2
        exact ⟨rfl, hnow1⟩
    · intro e1 dl h
      simp at h
    · intro r h
      simp at h
  · -- `cancel()`
    have hp : s.sup.phase ≤ 3 := by rw [hs]; simp [Sup.phase]
    obtain ⟨he, hnow⟩ := hr.mid e (Or.inl hs)
    refine ⟨hit, fun _ => hr.clock hp, ?_, ?_, ?_, ?_, ?_, ?_⟩
    · intro h
      simp [Sup.phase] at h
    · intro h
      simp at h
    · intro e1 h
      simp at h
      subst h
      exact ⟨he, hnow⟩
    · intro c h
      simp at h
      omega
    · intro e1 dl h
      simp at h
    · intro r h
      simp at h
  · -- the waiting goroutine is started
    have hp : s.sup.phase ≤ 3 := by rw [hs]; simp [Sup.phase]
    refine ⟨hit, fun _ => hr.clock hp, ?_, ?_, ?_, hr.stop, ?_, ?_⟩
    · intro h
      simp [Sup.phase] at h
    · intro h
      simp at h
    · intro e1 h
      simp at h
      subst h
      exact hr.mid e (Or.inr (Or.inl hs))
    · intro e1 dl h
      simp at h
    · intro r h
      simp at h
  · -- the timer is armed
    have hp : s.sup.phase ≤ 3 := by rw [hs]; simp [Sup.phase]
    have hclock := hr.clock hp
    obtain ⟨he, hnow⟩ := hr.mid e (Or.inr (Or.inr hs))
    have hH := hd.hH
    refine ⟨hit, ?_, ?_, ?_, ?_, hr.stop, ?_, ?_⟩
    · intro h
      simp [Sup.phase] at h
    · intro h
      simp [Sup.phase] at h
    · intro h
      simp at h
    · intro e1 h
      simp at h
    · intro e1 dl h
      simp at h
      obtain ⟨rfl, rfl⟩ := h
      refine ⟨he, by omega, ?_⟩
      show s.now ≤ H + s.late
      omega
    · intro r h
      simp at h
  · -- `wg.Wait()` returns
    exact ⟨hit, hr.clock, hr.early, hr.atRecv, hr.mid, hr.stop, hr.sel, hr.ret⟩
  · -- `select` takes `doneChan`
    obtain ⟨he, -, -⟩ := hr.sel e dl hs
    refine ⟨hit, ?_, ?_, ?_, ?_, hr.stop, ?_, ?_⟩
    · intro h
      simp [Sup.phase] at h
    · intro h
      simp [Sup.phase] at h
    · intro h
      simp at h
    · intro e1 h
      simp at h
    · intro e1 dl h
      simp at h
    · intro r h
      simp at h
      rw [← h, he]
  · -- `select` takes the timer
    obtain ⟨-, hdl2, hnow⟩ := hr.sel e dl hs
    have := hd.hT
    omega

theorem Race_step (hd : Decided cfg funcs env m t1 em H L) {s t : State} {a : Action}
    (hr : Race cfg funcs m t1 em H s) (h : step cfg funcs env s a = some t)
    (hl : t.late ≤ L) : Race cfg funcs m t1 em H t := by
  rcases (step_cases h).2 with ⟨b, -, hb⟩ | ⟨-, rfl⟩
  · exact Race_stepD hd hr (by rw [← stepD_late hb]; exact hl) hb
  · exact Race_tick hd hr hl

/-- In every state of an execution that has scheduling delay at most `L`, the
invariant of the decided race holds. -/
theorem Race_from (hd : Decided cfg funcs env m t1 em H L) {s t : State}
    (hr : Race cfg funcs m t1 em H s) (h : ReachableFrom cfg funcs env s t)
    (hl : t.late ≤ L) : Race cfg funcs m t1 em H t := by
  have key : t.late ≤ L → Race cfg funcs m t1 em H t := by
    refine ReachableFrom.induct (fun u => u.late ≤ L → Race cfg funcs m t1 em H u) ?_
      (fun _ => hr) h
    intro u a v hu hst hv
    have := step_late hst
    exact Race_step hd (hu (by omega)) hst hv
  exact key hl

end RaceStep

section RaceResult

variable {cfg : Config} {funcs : List Func} {env : Env}
variable {m t1 H L : Nat} {em : error}

theorem phase_zero_iff {p : Sup} : p.phase = 0 ↔ p = .recv := by
  cases p <;> simp [Sup.phase]

/-- No signal ends the process when every one that could is hooked and arrives
by instant `c0`, and the stop function is not called before `c0`. -/
theorem alive_of_safe {c0 : Nat} (hsafe : Run.safeUntil cfg env c0) {s : State}
    (hstop : ∀ c, s.stoppedAt = some c → c0 ≤ c) : killed cfg env s = false := by
  unfold killed
  rw [List.any_eq_false]
  intro p hp
  cases hf : p.2.fatal with
  | false => simp
  | true =>
    obtain ⟨hh, hle⟩ := hsafe p hp hf
    have hc : caught cfg s.stoppedAt p = true := by
      unfold caught
      cases hst : s.stoppedAt with
      | none => simp [hh]
      | some c =>
        have := hstop c hst
        simp [hh]
        omega
    simp [hc]

theorem Race_keeps (hd : Decided cfg funcs env m t1 em H L)
    (hsafe : Run.safeUntil cfg env t1) :
    Keeps cfg funcs env (fun s => Race cfg funcs m t1 em H s ∧ s.late ≤ L) := by
  refine ⟨fun s hs => hs.1.inv, fun s hs => alive_of_safe hsafe hs.1.stop, ?_, ?_⟩
  · rintro s a t ⟨hr, hl⟩ h
    exact ⟨Race_stepD hd hr hl h, by rw [stepD_late h]; exact hl⟩
  · rintro s ⟨hr, hl⟩ hq
    have := Race_tick hd hr (by rw [hq]; simpa using hl)
    rw [hq] at this
    exact ⟨this, hl⟩

theorem Race_receives (hd : Decided cfg funcs env m t1 em H L)
    (hsafe : Run.safeUntil cfg env t1) (n : Nat) :
    ∀ s : State, Race cfg funcs m t1 em H s → s.late ≤ L → t1 - s.now ≤ n →
    ∃ t, ReachableFrom cfg funcs env s t ∧ Race cfg funcs m t1 em H t ∧
      t.late = s.late ∧ 1 ≤ t.sup.phase := by
  have hJ := Race_keeps hd hsafe
  induction n with
  | zero =>
    intro s hr hl hn
    obtain ⟨u, hu, ⟨hru, hlu⟩, hq, hnow, hlate⟩ := quiesce hJ ⟨hr, hl⟩
    rcases Nat.eq_zero_or_pos u.sup.phase with h0 | h1
    · have := Race_waits hd hru hlu hq (phase_zero_iff.1 h0)
      omega
    · exact ⟨u, hu, hru, hlate, h1⟩
  | succ n ih =>
    intro s hr hl hn
    obtain ⟨u, hu, ⟨hru, hlu⟩, hq, hnow, hlate⟩ := quiesce hJ ⟨hr, hl⟩
    rcases Nat.eq_zero_or_pos u.sup.phase with h0 | h1
    · have htick := tick_of_quiescent (hJ.alive u ⟨hru, hlu⟩) hq
      have hr1 := (hJ.tick u ⟨hru, hlu⟩ hq).1
      obtain ⟨t, ht, hrt, hlt, hp⟩ := ih { u with now := u.now + 1 } hr1 hlu
        (by show t1 - (u.now + 1) ≤ n; omega)
      exact ⟨t, hu.trans ((ReachableFrom.one htick).trans ht), hrt, by rw [hlt]; exact hlate, hp⟩
    · exact ⟨u, hu, hru, hlate, h1⟩

/-- A decided race. In every state of an execution with scheduling delay at
most `L` in which `Run` has returned, it has returned the result of the
winning task, not wrapped; and, when no signal ends the process, from every
state of such an execution `Run` can go on to return that result with no
further scheduling delay. -/
theorem Race_result (hd : Decided cfg funcs env m t1 em H L) :
    (∀ s r, Reachable cfg funcs env s → s.late ≤ L → s.sup = .returned r → r = em) ∧
    (Run.safeUntil cfg env t1 → ∀ s, Reachable cfg funcs env s → s.late ≤ L →
      ∃ t, ReachableFrom cfg funcs env s t ∧ t.late = s.late ∧ t.sup = .returned em) := by
  have h0 := @Race_init cfg funcs env _ _ _ _ _ hd
  constructor
  · intro s r hs hl hr
    exact (Race_from hd h0 hs hl).ret r hr
  · intro hsafe s hs hl
    have hJ := Race_keeps hd hsafe
    have hrs := Race_from hd h0 hs hl
    obtain ⟨t, ht, hrt, hlt, hp⟩ := Race_receives hd hsafe t1 s hrs hl (by omega)
    obtain ⟨u, r, hu, ⟨hru, -⟩, hr, hlu⟩ := eventually_returns hJ ⟨hrt, by omega⟩ hp
    have := hru.ret r hr
    subst this
    exact ⟨u, ht.trans hu, by rw [hlu, hlt], hr⟩

end RaceResult

section Claims

theorem defaults_Timeout (cfg : Config) :
    (Run.defaults cfg).Timeout = if cfg.Timeout = 0 then defaultTimeout else cfg.Timeout := by
  unfold Run.defaults
  by_cases h1 : cfg.Timeout = 0 <;> by_cases h2 : cfg.Signals.length = 0 <;> simp [h1, h2]

theorem defaults_Signals (cfg : Config) :
    (Run.defaults cfg).Signals
      = if cfg.Signals.length = 0 then [os.Interrupt, os.Kill, Signal.SIGHUP]
        else cfg.Signals := by
  unfold Run.defaults
  by_cases h1 : cfg.Timeout = 0 <;> by_cases h2 : cfg.Signals.length = 0 <;> simp [h1, h2]

/-- A worker of the test file is cooperative, in the sense that it returns its
error as soon as its delay has elapsed or the context is done, exactly when it
is not `ungraceful` and its `endAfter` is not zero (with `endAfter == 0` it
waits for the context alone, lines 94-97). -/
theorem worker_cooperative_iff (w : worker) :
    (∀ (now : Nat) (done : Bool),
      w.Run now done = if w.endAfter ≤ (now : Int) ∨ done = true then some w.err else none)
      ↔ (w.ungraceful = false ∧ w.endAfter ≠ 0) := by
  constructor
  · intro h
    constructor
    · cases hu : w.ungraceful with
      | false => rfl
      | true =>
        have := h 0 true
        simp [worker.Run, hu] at this
    · intro h0
      have := h 0 false
      cases hu : w.ungraceful <;> simp [worker.Run, hu, h0] at this
  · rintro ⟨hu, h0⟩ now done
    unfold worker.Run
    rw [if_neg (by simp [hu]), if_pos h0]
    simp

/-- While no task returns and no signal ends the process, the clock of the
initial state can advance to any instant with nothing to run on the way. -/
theorem idle_ticks (cfg : Config) (funcs : List Func) (env : Env) (n : Nat)
    (hnone : ∀ (i : Nat) (f : Func), funcs[i]? = some f →
      ∀ t, t < n → f t (Run.notifyDone cfg env t) = none)
    (hfatal : ∀ p ∈ env.deliveries, p.2.fatal = false) :
    ReachableFrom cfg funcs env (Run.init funcs) { Run.init funcs with now := n } := by
  induction n with
  | zero => exact ReachableFrom.refl _
  | succ n ih =>
    have h1 := ih (fun i f hf t ht => hnone i f hf t (by omega))
    refine h1.trans ?_
    have hk : killed cfg env { Run.init funcs with now := n } = false := by
      unfold killed
      rw [List.any_eq_false]
      intro p hp
      simp [hfatal p hp]
    have hq : quiescent cfg funcs env { Run.init funcs with now := n } = true := by
      unfold quiescent
      rw [List.all_eq_true]
      intro a _
      cases a with
      | ret i =>
        simp only [stepD]
        cases hf : funcs[i]? with
        | none => simp [Run.init]
        | some f =>
          have hlt : i < funcs.length := (List.getElem?_eq_some_iff.1 hf).1
          have := hnone i f hf n (by omega)
          simp [Run.init, hlt, ctxDone, this]
      | send i =>
        simp only [stepD, Run.init]
        cases hg : (List.map (fun _ => GState.calling) funcs)[i]? with
        | none => rfl
        | some g =>
          have : g = .calling := by
            rw [List.getElem?_map] at hg
            cases hf : funcs[i]? <;> simp [hf] at hg
            exact hg.symm
          subst this
          rfl
      | wgDone i =>
        simp only [stepD, Run.init]
        cases hg : (List.map (fun _ => GState.calling) funcs)[i]? with
        | none => rfl
        | some g =>
          have : g = .calling := by
            rw [List.getElem?_map] at hg
            cases hf : funcs[i]? <;> simp [hf] at hg
            exact hg.symm
          subst this
          rfl
      | recv => rfl
      | cancel => rfl
      | goWait => rfl
      | arm => rfl
      | waitDone => rfl
      | selDone => rfl
      | selTimeout => rfl
    exact ReachableFrom.one (tick_of_quiescent hk hq)

/-- C1 (earliest wins), under a bound on the scheduling delay. Every task completes at its own delay after
the call, whatever happens to the context; `L` bounds the scheduling delay of
an execution (the time that goes by while some statement of `Run` or of a
goroutine could run); task `m` has the smallest delay, every other delay
exceeding it by more than `L`; and every delay plus `L` is below the smallest
delay plus the timeout in force (the configured one, or the default when that
is zero), which is the case when all delays are below that timeout and `L` is
at most the smallest delay. Then in every execution with scheduling delay at
most `L` what `Run` returns is the result of task `m`, not wrapped in
`ErrUngraceful`, whatever the other tasks return; and, when every signal that
would end the process is hooked and arrives no later than the smallest delay,
`Run` can always go on to return it with no further delay. -/
theorem Run_earliest_wins (cfg : Config) (env : Env) (funcs : List Func)
    (delay : Nat → Nat) (err : Nat → error) (m L : Nat)
    (hm : m < funcs.length)
    (hfun : ∀ (i : Nat) (f : Func), funcs[i]? = some f →
      ∀ now done, f now done = if delay i ≤ now then some (err i) else none)
    (hgap : ∀ i, i < funcs.length → i ≠ m → delay m + L < delay i)
    (hroom : ∀ i, i < funcs.length →
      (delay i : Int) + (L : Int)
        < (delay m : Int) + (if cfg.Timeout = 0 then defaultTimeout else cfg.Timeout)) :
    (∀ s r, Reachable cfg funcs env s → s.late ≤ L → s.sup = .returned r → r = err m) ∧
    (Run.safeUntil cfg env (delay m) → ∀ s, Reachable cfg funcs env s → s.late ≤ L →
      ∃ t, ReachableFrom cfg funcs env s t ∧ t.late = s.late ∧
        t.sup = .returned (err m)) := by
  have hroom1 : ∀ i, i < funcs.length →
      (delay i : Int) + (L : Int) < (delay m : Int) + (Run.defaults cfg).Timeout := by
    intro i hi
    rw [defaults_Timeout]
    exact hroom i hi
  have hTm := hroom1 m hm
  have hlt : ∀ (i : Nat) (f : Func), funcs[i]? = some f → i < funcs.length := by
    intro i f hf
    exact (List.getElem?_eq_some_iff.1 hf).1
  apply @Race_result cfg funcs env m (delay m)
    ((delay m : Int) + (Run.defaults cfg).Timeout - (L : Int) - 1).toNat L (err m)
  refine ⟨hm, ?_, ?_, ?_, ?_, ?_, ?_⟩
  · intro i f hf hne t ht
    have h2 := hgap i (hlt i f hf) hne
    rw [hfun i f hf, if_neg (by omega)]
  · intro f hf t ht
    rw [hfun m f hf, if_neg (by omega)]
  · intro f hf t h1 _
    rw [hfun m f hf, if_pos h1]
  · intro i f hf t ht
    have h1 := hroom1 i (hlt i f hf)
    rw [hfun i f hf, if_pos (by omega)]
    rfl
  · omega
  · omega

theorem Run_earliest_wins_witness :
    (∀ s r, Reachable { }
        [fun now _ => if 1000000 ≤ now then some none else none,
         fun now _ => if 5000000 ≤ now then some (some (.errorString "error two")) else none]
        ⟨[(500000, Signal.SIGINT)]⟩ s → s.late ≤ 1000000 → s.sup = .returned r → r = none) ∧
    (∀ s, Reachable { }
        [fun now _ => if 1000000 ≤ now then some none else none,
         fun now _ => if 5000000 ≤ now then some (some (.errorString "error two")) else none]
        ⟨[(500000, Signal.SIGINT)]⟩ s → s.late ≤ 1000000 →
      ∃ t, ReachableFrom { }
        [fun now _ => if 1000000 ≤ now then some none else none,
         fun now _ => if 5000000 ≤ now then some (some (.errorString "error two")) else none]
        ⟨[(500000, Signal.SIGINT)]⟩ s t ∧ t.late = s.late ∧ t.sup = .returned none) :=
  have h := Run_earliest_wins { } ⟨[(500000, Signal.SIGINT)]⟩
    [fun now _ => if 1000000 ≤ now then some none else none,
     fun now _ => if 5000000 ≤ now then some (some (.errorString "error two")) else none]
    (fun i => if i = 0 then 1000000 else 5000000)
    (fun i => if i = 0 then none else some (.errorString "error two"))
    0 1000000 (by decide)
    (by
      intro i f hf now done
      rcases i with _ | _ | i
      · simp at hf
        subst hf
        rfl
      · simp at hf
        subst hf
        rfl
      · simp at hf)
    (by
      intro i hi hne
      have h0 : ¬ i = 0 := hne
      simp [h0])
    (by
      intro i hi
      by_cases h0 : i = 0 <;> simp [h0, defaultTimeout, time.Second])
  ⟨h.1, h.2 (by
    intro p hp _
    simp at hp
    subst hp
    exact ⟨by decide, by decide⟩)⟩

/-- C1 without a bound on the scheduling delay does not hold: one task that
completes 2ns after the call with `nil`, timeout 7ns, no signal. The delay is
below the timeout, yet `Run` can return `ErrUngraceful{nil}`: the timer of
line 98, armed at 2ns for 9ns, fires while `wg.Done()` of the goroutine has
not run yet. -/
theorem Run_earliest_wins_counterexample :
    ((2 : Nat) : Int) < (Run.defaults { Timeout := 7 }).Timeout ∧
    Run.Returns { Timeout := 7 } [fun now _ => if 2 ≤ now then some none else none] ⟨[]⟩
      (some (.ErrUngraceful none)) ∧
    ¬ ∀ r, Run.Returns { Timeout := 7 } [fun now _ => if 2 ≤ now then some none else none]
      ⟨[]⟩ r → r = none := by
  have h1 : ReachableFrom { Timeout := 7 } [fun now _ => if 2 ≤ now then some none else none]
      ⟨[]⟩ (Run.init [fun now _ => if 2 ≤ now then some none else none])
      ⟨2, 0, some 2, [.sent], [], 1, .selecting none 9, .waiting⟩ :=
    ⟨[.tick, .tick, .d (.ret 0), .d (.send 0), .d .recv, .d .cancel, .d .goWait, .d .arm], rfl⟩
  have h2 : ReachableFrom { Timeout := 7 } [fun now _ => if 2 ≤ now then some none else none]
      ⟨[]⟩ ⟨2, 0, some 2, [.sent], [], 1, .selecting none 9, .waiting⟩
      ⟨6, 4, some 2, [.sent], [], 1, .selecting none 9, .waiting⟩ :=
    ⟨[.tick, .tick, .tick, .tick], rfl⟩
  have h3 : ReachableFrom { Timeout := 7 } [fun now _ => if 2 ≤ now then some none else none]
      ⟨[]⟩ ⟨6, 4, some 2, [.sent], [], 1, .selecting none 9, .waiting⟩
      ⟨9, 7, some 2, [.sent], [], 1, .returned (some (.ErrUngraceful none)), .waiting⟩ :=
    ⟨[.tick, .tick, .tick, .d .selTimeout], rfl⟩
  have hret : Run.Returns { Timeout := 7 }
      [fun now _ => if 2 ≤ now then some none else none] ⟨[]⟩ (some (.ErrUngraceful none)) :=
    ⟨_, (h1.trans h2).trans h3, rfl⟩
  refine ⟨by decide, hret, ?_⟩
  intro hall
  have := hall _ hret
  cases this

/-- C2 (cooperative workers), under a bound on the scheduling delay. Every worker of the list returns its
own error as soon as its `endAfter` delay has elapsed or the context is done,
whichever comes first; `L` bounds the scheduling delay of an execution (the
time that goes by while some statement of `Run` or of a goroutine could run);
worker `m` has a delay that is not negative and every other delay exceeds it
by more than `L`; the timeout in force (the configured one, or the default
when that is zero) is larger than `L`; nothing from outside (a
signal, the parent context) ends the context up to that delay plus `L`. Then
in every execution with scheduling delay at most `L` what `Run` returns is the
error of worker `m`, not wrapped: the other delays may exceed the timeout, the
timer being armed only after the context is cancelled. And, when no signal that
would end the process is delivered, `Run` can always go on to return it with
no further delay. -/
theorem Run_cooperative_workers (cfg : Config) (env : Env) (ws : List worker)
    (m L : Nat) (wm : worker) (hm : ws[m]? = some wm)
    (hcoop : ∀ w ∈ ws, ∀ (now : Nat) (done : Bool),
      w.Run now done = if w.endAfter ≤ (now : Int) ∨ done = true then some w.err else none)
    (hnonneg : 0 ≤ wm.endAfter)
    (hsmall : ∀ (i : Nat) (w : worker), ws[i]? = some w → i ≠ m →
      wm.endAfter + (L : Int) < w.endAfter)
    (htimeout : (L : Int) < (if cfg.Timeout = 0 then defaultTimeout else cfg.Timeout))
    (hquiet : ∀ t : Nat, (t : Int) ≤ wm.endAfter + (L : Int) →
      Run.notifyDone cfg env t = false) :
    (∀ s r, Reachable cfg (ws.map worker.Run) env s → s.late ≤ L →
      s.sup = .returned r → r = wm.err) ∧
    ((∀ p ∈ env.deliveries, p.2.fatal = false) →
      ∀ s, Reachable cfg (ws.map worker.Run) env s → s.late ≤ L →
      ∃ t, ReachableFrom cfg (ws.map worker.Run) env s t ∧ t.late = s.late ∧
        t.sup = .returned wm.err) := by
  have hdef : (L : Int) < (Run.defaults cfg).Timeout := by
    rw [defaults_Timeout]
    exact htimeout
  have hget : ∀ (i : Nat) (f : Func), (ws.map worker.Run)[i]? = some f →
      ∃ w, ws[i]? = some w ∧ f = w.Run := by
    intro i f hf
    rw [List.getElem?_map] at hf
    cases hw : ws[i]? with
    | none => simp [hw] at hf
    | some w =>
      simp [hw] at hf
      exact ⟨w, rfl, hf.symm⟩
  have hmem : ∀ (i : Nat) (w : worker), ws[i]? = some w → w ∈ ws :=
    fun i w hw => List.mem_iff_getElem?.2 ⟨i, hw⟩
  have hd : Decided cfg (ws.map worker.Run) env m wm.endAfter.toNat wm.err
      wm.endAfter.toNat L := by
    refine ⟨?_, ?_, ?_, ?_, ?_, Nat.le_refl _, ?_⟩
    · have := (List.getElem?_eq_some_iff.1 hm).1
      simpa using this
    · intro i f hf hne t ht
      obtain ⟨w, hw, rfl⟩ := hget i f hf
      have h1 := hsmall i w hw hne
      rw [hcoop w (hmem i w hw), hquiet t (by omega)]
      rw [if_neg]
      simp
      omega
    · intro f hf t ht
      obtain ⟨w, hw, rfl⟩ := hget m f hf
      rw [hm] at hw
      cases hw
      rw [hcoop _ (hmem m _ hm), hquiet t (by omega)]
      rw [if_neg]
      simp
      omega
    · intro f hf t h1 h2
      obtain ⟨w, hw, rfl⟩ := hget m f hf
      rw [hm] at hw
      cases hw
      rw [hcoop _ (hmem m _ hm), if_pos]
      left
      omega
    · intro i f hf t ht
      obtain ⟨w, hw, rfl⟩ := hget i f hf
      rw [hcoop w (hmem i w hw), if_pos (Or.inr rfl)]
      rfl
    · omega
  have hres := Race_result hd
  refine ⟨hres.1, fun hfatal => hres.2 ?_⟩
  intro p hp hf
  rw [hfatal p hp] at hf
  cases hf

theorem Run_cooperative_workers_witness :
    (∀ s r, Reachable { Timeout := 10000000 }
        (([⟨100000000, false, some (.errorString "error one")⟩,
           ⟨10000000, false, some (.errorString "error two")⟩,
           ⟨100000000, false, some (.errorString "error three")⟩] : List worker).map worker.Run)
        ⟨[]⟩ s → s.late ≤ 1000000 → s.sup = .returned r →
      r = some (.errorString "error two")) ∧
    (∀ s, Reachable { Timeout := 10000000 }
        (([⟨100000000, false, some (.errorString "error one")⟩,
           ⟨10000000, false, some (.errorString "error two")⟩,
           ⟨100000000, false, some (.errorString "error three")⟩] : List worker).map worker.Run)
        ⟨[]⟩ s → s.late ≤ 1000000 →
      ∃ t, ReachableFrom { Timeout := 10000000 }
        (([⟨100000000, false, some (.errorString "error one")⟩,
           ⟨10000000, false, some (.errorString "error two")⟩,
           ⟨100000000, false, some (.errorString "error three")⟩] : List worker).map worker.Run)
        ⟨[]⟩ s t ∧ t.late = s.late ∧ t.sup = .returned (some (.errorString "error two"))) :=
  have h := Run_cooperative_workers { Timeout := 10000000 } ⟨[]⟩
    [⟨100000000, false, some (.errorString "error one")⟩,
     ⟨10000000, false, some (.errorString "error two")⟩,
     ⟨100000000, false, some (.errorString "error three")⟩]
    1 1000000 ⟨10000000, false, some (.errorString "error two")⟩ rfl
    (by
      intro w hw
      simp at hw
      rcases hw with rfl | rfl | rfl <;>
        exact (worker_cooperative_iff _).2 ⟨rfl, by decide⟩)
    (by decide)
    (by
      intro i w hw hne
      rcases i with _ | _ | _ | i
      · simp at hw
        subst hw
        decide
      · exact absurd rfl hne
      · simp at hw
        subst hw
        decide
      · simp at hw)
    (by decide)
    (by
      intro t _
      simp [Run.notifyDone, Run.base, Context.isDone, Context.Background])
  ⟨h.1, h.2 (by
    intro p hp
    simp at hp)⟩

/-- C2 does not hold for every positive timeout: the workers of test case
graceful2 (delays 100ms, 10ms, 100ms) with timeout 1ns and no signal. The
second worker has the strictly smallest delay, yet `Run` can return its error
wrapped in `ErrUngraceful`: the timer of line 98, armed at 10ms for 1ns later,
fires before the other workers have been scheduled to return. -/
theorem Run_cooperative_workers_counterexample :
    Run.Returns { Timeout := 1 }
      (([⟨100000000, false, some (.errorString "error one")⟩,
         ⟨10000000, false, some (.errorString "error two")⟩,
         ⟨100000000, false, some (.errorString "error three")⟩] : List worker).map worker.Run)
      ⟨[]⟩ (some (.ErrUngraceful (some (.errorString "error two")))) ∧
    ¬ ∀ r, Run.Returns { Timeout := 1 }
      (([⟨100000000, false, some (.errorString "error one")⟩,
         ⟨10000000, false, some (.errorString "error two")⟩,
         ⟨100000000, false, some (.errorString "error three")⟩] : List worker).map worker.Run)
      ⟨[]⟩ r → r = some (.errorString "error two") := by
  have h1 := idle_ticks { Timeout := 1 }
    (([⟨100000000, false, some (.errorString "error one")⟩,
       ⟨10000000, false, some (.errorString "error two")⟩,
       ⟨100000000, false, some (.errorString "error three")⟩] : List worker).map worker.Run)
    ⟨[]⟩ 10000000
    (by
      intro i f hf t ht
      have hq : Run.notifyDone { Timeout := 1 } ⟨[]⟩ t = false := by
        simp [Run.notifyDone, Run.base, Context.isDone, Context.Background]
      rw [hq]
      rcases i with _ | _ | _ | i
      · simp at hf
        subst hf
        simp [worker.Run]
        omega
      · simp at hf
        subst hf
        simp [worker.Run]
        omega
      · simp at hf
        subst hf
        simp [worker.Run]
        omega
      · simp at hf)
    (by
      intro p hp
      simp at hp)
  have h2 : ReachableFrom { Timeout := 1 }
      (([⟨100000000, false, some (.errorString "error one")⟩,
         ⟨10000000, false, some (.errorString "error two")⟩,
         ⟨100000000, false, some (.errorString "error three")⟩] : List worker).map worker.Run)
      ⟨[]⟩
      ⟨10000000, 0, none, [.calling, .calling, .calling], [], 3, .recv, .notStarted⟩
      ⟨10000001, 1, some 10000000, [.calling, .sent, .calling], [], 3,
        .returned (some (.ErrUngraceful (some (.errorString "error two")))), .waiting⟩ :=
    ⟨[.d (.ret 1), .d (.send 1), .d .recv, .d .cancel, .d .goWait, .d .arm, .tick,
      .d .selTimeout], rfl⟩
  have hret : Run.Returns { Timeout := 1 }
      (([⟨100000000, false, some (.errorString "error one")⟩,
         ⟨10000000, false, some (.errorString "error two")⟩,
         ⟨100000000, false, some (.errorString "error three")⟩] : List worker).map worker.Run)
      ⟨[]⟩ (some (.ErrUngraceful (some (.errorString "error two")))) :=
    ⟨_, ReachableFrom.trans h1 h2, rfl⟩
  refine ⟨hret, ?_⟩
  intro hall
  have := hall _ hret
  cases this

end Claims

section StuckProof

variable {cfg : Config} {funcs : List Func} {env : Env}
variable {i t0 : Nat} {e : error}

theorem wg_pos_of_calling {s : State} (hi : Inv funcs s) {i : Nat}
    (hg : s.gs[i]? = some .calling) : 0 < s.wg := by
  rw [hi.wg]
  exact List.countP_pos_iff.2 ⟨.calling, List.mem_iff_getElem?.2 ⟨i, hg⟩, rfl⟩

theorem Stuck_stepD {f : Func} (hf : funcs[i]? = some f)
    (hnever : ∀ (t : Nat) (done : Bool), t0 ≤ t → f t done = none)
    {s t : State} {a : DAct}
    (hr : Stuck cfg funcs i t0 e s) (h : stepD cfg funcs env s a = some t) :
    Stuck cfg funcs i t0 e t := by
  have hi := hr.inv
  have hit := Inv_stepD hi h
  have hcall := hr.calling
  have hwg := wg_pos_of_calling hi hcall
  rcases stepD_cases h with ⟨j, g, e1, -, hg, hg2, he, rfl⟩ | ⟨j, e1, -, hg, hroom, rfl⟩ |
    ⟨j, -, hg, rfl⟩ | ⟨e1, rest, -, hs, hc, rfl⟩ | ⟨e1, -, hs, rfl⟩ | ⟨e1, -, hs, rfl⟩ |
    ⟨e1, -, hs, rfl⟩ | ⟨-, hw, hwg0, rfl⟩ | ⟨e1, dl, -, hs, hw, rfl⟩ | ⟨e1, dl, -, hs, hdl, rfl⟩
  · have hne : j ≠ i := by
      rintro rfl
      rw [hf] at hg2
      cases hg2
      rw [hnever s.now _ hr.later] at he
      cases he
    refine ⟨hit, ?_, hr.later, hr.stop, hr.sup⟩
    show (s.gs.set j _)[i]? = _
    rw [List.getElem?_set_ne hne]
    exact hcall
  · have hne : j ≠ i := by
      rintro rfl
      rw [hcall] at hg
      cases hg
    refine ⟨hit, ?_, hr.later, hr.stop, hr.sup⟩
    show (s.gs.set j _)[i]? = _
    rw [List.getElem?_set_ne hne]
    exact hcall
  · have hne : j ≠ i := by
      rintro rfl
      rw [hcall] at hg
      cases hg
    refine ⟨hit, ?_, hr.later, hr.stop, hr.sup⟩
    show (s.gs.set j _)[i]? = _
    rw [List.getElem?_set_ne hne]
    exact hcall
  · rcases hr.sup with h1 | h1 | h1 | ⟨dl, h1, -⟩ | ⟨h1, -⟩ <;> rw [hs] at h1 <;> cases h1
  · have he1 : e1 = e := by
      rcases hr.sup with h1 | h1 | h1 | ⟨dl, h1, -⟩ | ⟨h1, -⟩ <;> rw [hs] at h1 <;> cases h1
      rfl
    subst he1
    refine ⟨hit, hcall, hr.later, ?_, Or.inr (Or.inl rfl)⟩
    intro c hc
    simp at hc
    have := hr.later
    omega
  · have he1 : e1 = e := by
      rcases hr.sup with h1 | h1 | h1 | ⟨dl, h1, -⟩ | ⟨h1, -⟩ <;> rw [hs] at h1 <;> cases h1
      rfl
    subst he1
    exact ⟨hit, hcall, hr.later, hr.stop, Or.inr (Or.inr (Or.inl rfl))⟩
  · have he1 : e1 = e := by
      rcases hr.sup with h1 | h1 | h1 | ⟨dl, h1, -⟩ | ⟨h1, -⟩ <;> rw [hs] at h1 <;> cases h1
      rfl
    subst he1
    have hlater := hr.later
    refine ⟨hit, hcall, hr.later, hr.stop, Or.inr (Or.inr (Or.inr (Or.inl ⟨_, rfl, ?_⟩)))⟩
    omega
  · omega
  · have := hi.closed hw
    omega
  · have hsel : e1 = e ∧ (t0 : Int) + (Run.defaults cfg).Timeout ≤ dl := by
      rcases hr.sup with h1 | h1 | h1 | ⟨dl1, h1, h2⟩ | ⟨h1, -⟩ <;> rw [hs] at h1 <;> cases h1
      exact ⟨rfl, h2⟩
    obtain ⟨rfl, hle⟩ := hsel
    refine ⟨hit, hcall, hr.later, hr.stop, Or.inr (Or.inr (Or.inr (Or.inr ⟨rfl, ?_⟩)))⟩
    show (t0 : Int) + (Run.defaults cfg).Timeout ≤ (s.now : Int)
    omega

theorem Stuck_tick {s : State} (hr : Stuck cfg funcs i t0 e s) (l : Nat) :
    Stuck cfg funcs i t0 e { s with now := s.now + 1, late := l } := by
  have hlater := hr.later
  have hnow1 : t0 ≤ s.now + 1 := by omega
  refine ⟨Inv_tick hr.inv _ _, hr.calling, hnow1, hr.stop, ?_⟩
  rcases hr.sup with h1 | h1 | h1 | h1 | ⟨h1, h2⟩
  · exact Or.inl h1
  · exact Or.inr (Or.inl h1)
  · exact Or.inr (Or.inr (Or.inl h1))
  · exact Or.inr (Or.inr (Or.inr (Or.inl h1)))
  · refine Or.inr (Or.inr (Or.inr (Or.inr ⟨h1, ?_⟩)))
    show (t0 : Int) + (Run.defaults cfg).Timeout ≤ ((s.now + 1 : Nat) : Int)
    omega

theorem Stuck_from {f : Func} (hf : funcs[i]? = some f)
    (hnever : ∀ (t : Nat) (done : Bool), t0 ≤ t → f t done = none)
    {s t : State} (hr : Stuck cfg funcs i t0 e s) (h : ReachableFrom cfg funcs env s t) :
    Stuck cfg funcs i t0 e t := by
  refine ReachableFrom.induct (Stuck cfg funcs i t0 e) ?_ hr h
  intro u a v hu hst
  rcases (step_cases hst).2 with ⟨b, -, hb⟩ | ⟨-, rfl⟩
  · exact Stuck_stepD hf hnever hu hb
  · exact Stuck_tick hu _

theorem Stuck_keeps {f : Func} (hf : funcs[i]? = some f)
    (hnever : ∀ (t : Nat) (done : Bool), t0 ≤ t → f t done = none)
    (hsafe : Run.safeUntil cfg env t0) :
    Keeps cfg funcs env (Stuck cfg funcs i t0 e) :=
  ⟨fun _ hs => hs.inv, fun _ hs => alive_of_safe hsafe hs.stop,
    fun _ _ _ hs h => Stuck_stepD hf hnever hs h, fun _ hs _ => Stuck_tick hs _⟩

end StuckProof

section Claims2

/-- While no task returns, the supervisor stays at line 88 and `errChan`
stays empty. -/
theorem idle_from (cfg : Config) (funcs : List Func) (env : Env)
    (hnever : ∀ (i : Nat) (f : Func), funcs[i]? = some f → ∀ t done, f t done = none)
    {s : State} (h : Reachable cfg funcs env s) :
    s.sup = .recv ∧ s.errChan = [] ∧ ∀ g ∈ s.gs, g = GState.calling := by
  refine ReachableFrom.induct
    (fun u => u.sup = .recv ∧ u.errChan = [] ∧ ∀ g ∈ u.gs, g = GState.calling) ?_ ?_ h
  · rintro u a v ⟨hsup, hch, hgs⟩ hst
    rcases (step_cases hst).2 with ⟨b, -, hb⟩ | ⟨-, rfl⟩
    swap
    · exact ⟨hsup, hch, hgs⟩
    · have hmem : ∀ (j : Nat) (g : GState), u.gs[j]? = some g → g = .calling :=
        fun j g hg => hgs g (List.mem_iff_getElem?.2 ⟨j, hg⟩)
      rcases stepD_cases hb with ⟨j, g, e1, -, hg, hg2, he, rfl⟩ | ⟨j, e1, -, hg, hroom, rfl⟩ |
        ⟨j, -, hg, rfl⟩ | ⟨e1, rest, -, hs, hc, rfl⟩ | ⟨e1, -, hs, rfl⟩ | ⟨e1, -, hs, rfl⟩ |
        ⟨e1, -, hs, rfl⟩ | ⟨-, hw, hwg0, rfl⟩ | ⟨e1, dl, -, hs, hw, rfl⟩ | ⟨e1, dl, -, hs, hdl, rfl⟩
      · rw [hnever j g hg2] at he
        cases he
      · cases hmem j _ hg
      · cases hmem j _ hg
      · rw [hch] at hc
        cases hc
      · rw [hsup] at hs
        cases hs
      · rw [hsup] at hs
        cases hs
      · rw [hsup] at hs
        cases hs
      · exact ⟨hsup, hch, hgs⟩
      · rw [hsup] at hs
        cases hs
      · rw [hsup] at hs
        cases hs
  · refine ⟨rfl, rfl, ?_⟩
    intro g hg
    simp [Run.init] at hg
    exact hg.2

/-- C3 (timeout wraps). In a state of a run in which line 88 has just taken
the first result `e`, goroutine `i` being inside a call that does not return
from this instant on, however the context stands: every value `Run` can return
is `ErrUngraceful{OriginalError: e}`, and it returns no earlier than the
timeout after that instant, whatever the scheduling and the signals; and,
when every signal that would end the process is hooked and arrives no later
than that instant (none arrives once the first result is taken), `Run` does
return it. -/
theorem Run_timeout_wraps (cfg : Config) (env : Env) (funcs : List Func)
    (s : State) (e : error) (i : Nat) (f : Func)
    (hs : Reachable cfg funcs env s) (hsup : s.sup = .atCancel e)
    (hg : s.gs[i]? = some .calling) (hf : funcs[i]? = some f)
    (hnever : ∀ (t : Nat) (done : Bool), s.now ≤ t → f t done = none) :
    (∀ t r, ReachableFrom cfg funcs env s t → t.sup = .returned r →
      r = some (.ErrUngraceful e) ∧
        (s.now : Int) + (if cfg.Timeout = 0 then defaultTimeout else cfg.Timeout)
          ≤ (t.now : Int)) ∧
    (Run.safeUntil cfg env s.now →
      ∃ t, ReachableFrom cfg funcs env s t ∧ t.late = s.late ∧
        t.sup = .returned (some (.ErrUngraceful e))) := by
  have hi := Inv_reachable hs
  have hnone : s.stoppedAt = none := by
    have := hi.stop
    rw [hsup] at this
    simpa [Sup.phase] using this
  have h0 : Stuck cfg funcs i s.now e s :=
    ⟨hi, hg, Nat.le_refl _, fun c hc => (by rw [hnone] at hc; cases hc), Or.inl hsup⟩
  have hret : ∀ t r, ReachableFrom cfg funcs env s t → t.sup = .returned r →
      r = some (.ErrUngraceful e) ∧
        (s.now : Int) + (if cfg.Timeout = 0 then defaultTimeout else cfg.Timeout)
          ≤ (t.now : Int) := by
    intro t r ht hr
    have hst := Stuck_from hf hnever h0 ht
    rcases hst.sup with h1 | h1 | h1 | ⟨dl, h1, -⟩ | ⟨h1, hle⟩ <;> rw [hr] at h1 <;> cases h1
    rw [defaults_Timeout] at hle
    exact ⟨rfl, hle⟩
  refine ⟨hret, fun hsafe => ?_⟩
  obtain ⟨t, r, ht, -, hr, hl⟩ := eventually_returns (Stuck_keeps hf hnever hsafe) h0
    (by rw [hsup]; simp [Sup.phase])
  obtain ⟨rfl, -⟩ := hret t r ht hr
  exact ⟨t, ht, hl, hr⟩

theorem Run_timeout_wraps_witness :
    (∀ t r, ReachableFrom { Timeout := 10 }
        [worker.Run ⟨2, false, some (.errorString "error one")⟩, worker.Run ⟨0, true, none⟩]
        ⟨[(1, Signal.SIGINT)]⟩
        ⟨2, 1, none, [.sent, .calling], [], 2, .atCancel (some (.errorString "error one")),
          .notStarted⟩ t →
      t.sup = .returned r →
      r = some (.ErrUngraceful (some (.errorString "error one"))) ∧
        ((2 : Nat) : Int) + 10 ≤ (t.now : Int)) ∧
    (∃ t, ReachableFrom { Timeout := 10 }
        [worker.Run ⟨2, false, some (.errorString "error one")⟩, worker.Run ⟨0, true, none⟩]
        ⟨[(1, Signal.SIGINT)]⟩
        ⟨2, 1, none, [.sent, .calling], [], 2, .atCancel (some (.errorString "error one")),
          .notStarted⟩ t ∧
        t.late = 1 ∧
        t.sup = .returned (some (.ErrUngraceful (some (.errorString "error one"))))) :=
  have h := Run_timeout_wraps { Timeout := 10 } ⟨[(1, Signal.SIGINT)]⟩
    [worker.Run ⟨2, false, some (.errorString "error one")⟩, worker.Run ⟨0, true, none⟩]
    ⟨2, 1, none, [.sent, .calling], [], 2, .atCancel (some (.errorString "error one")),
      .notStarted⟩
    (some (.errorString "error one")) 1 (worker.Run ⟨0, true, none⟩)
    ⟨[.tick, .tick, .d (.ret 0), .d (.send 0), .d .recv], rfl⟩ rfl rfl rfl
    (fun _ _ _ => rfl)
  ⟨fun t r ht hr => by simpa using h.1 t r ht hr, h.2 (by
    intro p hp _
    simp at hp
    subst hp
    exact ⟨by decide, by decide⟩)⟩

end Claims2

section Claims3

/-- C4 (signal before any result), evaluated on the code. With one task that
never returns and `SIGINT` delivered at instant 1, the context is done from
instant 1 on, yet `Run` never returns: line 88 waits for a task result, not
for the context. With a second task that waits for the context and returns
"error one", `Run` can return `ErrUngraceful` wrapping "error one", not
`nil`. -/
theorem Run_signal_before_result :
    Run.notifyDone { Timeout := 2 } ⟨[(1, Signal.SIGINT)]⟩ 1 = true ∧
    (∀ r, ¬ Run.Returns { Timeout := 2 } [worker.Run ⟨0, true, none⟩]
      ⟨[(1, Signal.SIGINT)]⟩ r) ∧
    Run.Returns { Timeout := 2 }
      [worker.Run ⟨0, false, some (.errorString "error one")⟩, worker.Run ⟨0, true, none⟩]
      ⟨[(1, Signal.SIGINT)]⟩ (some (.ErrUngraceful (some (.errorString "error one")))) := by
  refine ⟨by decide, ?_, ?_⟩
  · rintro r ⟨s, hs, hr⟩
    have h := idle_from { Timeout := 2 } [worker.Run ⟨0, true, none⟩]
      ⟨[(1, Signal.SIGINT)]⟩ (by
        intro i f hf t done
        rcases i with _ | i
        · simp at hf
          subst hf
          rfl
        · simp at hf) hs
    rw [h.1] at hr
    cases hr
  · have h1 : ReachableFrom { Timeout := 2 }
        [worker.Run ⟨0, false, some (.errorString "error one")⟩, worker.Run ⟨0, true, none⟩]
        ⟨[(1, Signal.SIGINT)]⟩
        (Run.init [worker.Run ⟨0, false, some (.errorString "error one")⟩,
          worker.Run ⟨0, true, none⟩])
        ⟨1, 0, some 1, [.finished, .calling], [], 1,
          .selecting (some (.errorString "error one")) 3, .waiting⟩ :=
      ⟨[.tick, .d (.ret 0), .d (.send 0), .d .recv, .d .cancel, .d .goWait, .d .arm,
        .d (.wgDone 0)], rfl⟩
    have h2 : ReachableFrom { Timeout := 2 }
        [worker.Run ⟨0, false, some (.errorString "error one")⟩, worker.Run ⟨0, true, none⟩]
        ⟨[(1, Signal.SIGINT)]⟩
        ⟨1, 0, some 1, [.finished, .calling], [], 1,
          .selecting (some (.errorString "error one")) 3, .waiting⟩
        ⟨3, 0, some 1, [.finished, .calling], [], 1,
          .returned (some (.ErrUngraceful (some (.errorString "error one")))), .waiting⟩ :=
      ⟨[.tick, .tick, .d .selTimeout], rfl⟩
    exact ⟨_, h1.trans h2, rfl⟩

/-- C5. `Error()` of an `ErrUngraceful` without original error is the fixed
message; with an original error it is the text of that error, then "; ", then
the fixed message. -/
theorem ErrUngraceful_Error :
    (GoError.ErrUngraceful none).Error
      = "one ore more goroutines failed to gracefully finish" ∧
    ∀ o : GoError, (GoError.ErrUngraceful (some o)).Error
      = o.Error ++ "; " ++ "one ore more goroutines failed to gracefully finish" := by
  constructor
  · rw [GoError.Error]
    rfl
  · intro o
    rw [GoError.Error]
    rfl

theorem step_congr (cfg cfg2 : Config) (funcs : List Func) (env : Env)
    (hd : Run.defaults cfg = Run.defaults cfg2) (hb : Run.base cfg = Run.base cfg2) :
    step cfg funcs env = step cfg2 funcs env := by
  have hh : Run.hooked cfg = Run.hooked cfg2 := by
    funext sg
    simp [Run.hooked, hd]
  have hn : Run.notifyDone cfg env = Run.notifyDone cfg2 env := by
    funext t
    simp [Run.notifyDone, hh, hb]
  have hc : ctxDone cfg env = ctxDone cfg2 env := by
    funext s
    simp [ctxDone, hn]
  have hk : killed cfg env = killed cfg2 env := by
    funext s
    simp [killed, caught, hh]
  have hsd : stepD cfg funcs env = stepD cfg2 funcs env := by
    funext s a
    cases a <;> simp [stepD, hc, hd]
  funext s a
  simp only [step, quiescent, hsd, hk]

theorem exec_congr (cfg cfg2 : Config) (funcs : List Func) (env : Env)
    (hd : Run.defaults cfg = Run.defaults cfg2) (hb : Run.base cfg = Run.base cfg2)
    (s : State) (as : List Action) :
    exec cfg funcs env s as = exec cfg2 funcs env s as := by
  induction as generalizing s with
  | nil => rfl
  | cons a as ih =>
    simp only [exec, step_congr cfg cfg2 funcs env hd hb]
    cases step cfg2 funcs env s a with
    | none => rfl
    | some s1 => exact ih s1

/-- C6 (zero timeout is the default). With `Timeout == 0` every execution of
`Run` is step for step the execution of `Run` with `Timeout` set to the
default, which is 5 seconds; a timeout that is not zero is the one the timer
of line 98 is armed with. -/
theorem Run_zero_timeout (cfg : Config) (funcs : List Func) (env : Env) :
    (cfg.Timeout = 0 → ∀ as : List Action,
      exec cfg funcs env (Run.init funcs) as
        = exec { cfg with Timeout := defaultTimeout } funcs env (Run.init funcs) as) ∧
    defaultTimeout = 5 * 1000000000 ∧
    (cfg.Timeout ≠ 0 → ∀ (s : State) (e : error), s.sup = .atSelect e →
      stepD cfg funcs env s .arm
        = some { s with sup := .selecting e ((s.now : Int) + cfg.Timeout) }) := by
  refine ⟨?_, rfl, ?_⟩
  · intro h0 as
    apply exec_congr
    · unfold Run.defaults
      simp [h0, defaultTimeout, time.Second]
    · rfl
  · intro hne s e hs
    simp [stepD, hs, defaults_Timeout, hne]

theorem Run_zero_timeout_witness :
    (∀ as : List Action,
      exec { Timeout := 0 } [worker.Run ⟨2, false, none⟩] ⟨[]⟩
          (Run.init [worker.Run ⟨2, false, none⟩]) as
        = exec { Timeout := defaultTimeout } [worker.Run ⟨2, false, none⟩] ⟨[]⟩
          (Run.init [worker.Run ⟨2, false, none⟩]) as) ∧
    stepD { Timeout := 7 } [worker.Run ⟨2, false, none⟩] ⟨[]⟩
        ⟨2, 0, some 2, [.finished], [], 0, .atSelect none, .waiting⟩ .arm
      = some ⟨2, 0, some 2, [.finished], [], 0, .selecting none (2 + 7), .waiting⟩ :=
  ⟨(Run_zero_timeout { Timeout := 0 } [worker.Run ⟨2, false, none⟩] ⟨[]⟩).1 rfl,
   (Run_zero_timeout { Timeout := 7 } [worker.Run ⟨2, false, none⟩] ⟨[]⟩).2.2 (by decide)
     ⟨2, 0, some 2, [.finished], [], 0, .atSelect none, .waiting⟩ none rfl⟩

/-- C7 (default signals), evaluated on the code. With no signals configured
`Run` hooks on `os.Interrupt`, `os.Kill`, `syscall.SIGHUP`, that is SIGINT,
SIGKILL, SIGHUP: SIGTERM is not in the set and its delivery does not end the
context. Signals that are configured are used as given. -/
theorem Run_default_signals :
    (Run.defaults { }).Signals = [Signal.SIGINT, Signal.SIGKILL, Signal.SIGHUP] ∧
    Signal.SIGTERM ∉ (Run.defaults { }).Signals ∧
    (∀ t, Run.notifyDone { } ⟨[(1, Signal.SIGTERM)]⟩ t = false) ∧
    ∀ (cfg : Config) (sg : Signal) (sgs : List Signal),
      (Run.defaults { cfg with Signals := sg :: sgs }).Signals = sg :: sgs := by
  refine ⟨rfl, by decide, ?_, ?_⟩
  · intro t
    simp [Run.notifyDone, Run.base, Context.isDone, Context.Background, Run.defaults,
      Run.hooked, Signal.catchable, os.Interrupt, os.Kill]
  · intro cfg sg sgs
    rw [defaults_Signals, if_neg]
    simp

/-- C8 (no tasks). In every state of every execution of `Run` called with no
task, whatever the configuration and the signals delivered, the supervisor is
still at line 88 and `errChan` is empty: `Run` returns nothing. -/
theorem Run_no_tasks (cfg : Config) (env : Env) (s : State)
    (h : Reachable cfg [] env s) :
    s.sup = .recv ∧ s.errChan = [] ∧ ∀ r, s.sup ≠ .returned r := by
  have hidle := idle_from cfg [] env (by
    intro i f hf
    simp at hf) h
  refine ⟨hidle.1, hidle.2.1, ?_⟩
  intro r hr
  rw [hidle.1] at hr
  cases hr

theorem Run_no_tasks_witness :
    (⟨3, 0, none, [], [], 0, .recv, .notStarted⟩ : State).sup = .recv ∧
    (⟨3, 0, none, [], [], 0, .recv, .notStarted⟩ : State).errChan = [] ∧
    ∀ r, (⟨3, 0, none, [], [], 0, .recv, .notStarted⟩ : State).sup ≠ .returned r :=
  Run_no_tasks { Timeout := 2 } ⟨[(1, Signal.SIGINT)]⟩
    ⟨3, 0, none, [], [], 0, .recv, .notStarted⟩ ⟨[.tick, .tick, .tick], rfl⟩

end Claims3

section Channel

variable {cfg : Config} {funcs : List Func} {env : Env}

theorem wrote_le_one (s : State) (i : Nat) : wrote s i ≤ 1 := by
  unfold wrote
  split
  · split <;> omega
  · omega

theorem wrote_stepD {s t : State} {a : DAct} (hi : Inv funcs s)
    (h : stepD cfg funcs env s a = some t) (i : Nat) :
    wrote s i + (if a = .send i then 1 else 0) = wrote t i := by
  rcases stepD_cases h with ⟨j, g, e1, rfl, hg, hg2, he, rfl⟩ | ⟨j, e1, rfl, hg, hroom, rfl⟩ |
    ⟨j, rfl, hg, rfl⟩ | ⟨e1, rest, rfl, hs, hc, rfl⟩ | ⟨e1, rfl, hs, rfl⟩ | ⟨e1, rfl, hs, rfl⟩ |
    ⟨e1, rfl, hs, rfl⟩ | ⟨rfl, hw, hwg0, rfl⟩ | ⟨e1, dl, rfl, hs, hw, rfl⟩ |
    ⟨e1, dl, rfl, hs, hdl, rfl⟩
  · by_cases hji : j = i
    · subst hji
      have hl := (getElem?_lt_of_inv hi hg).1
      simp [wrote, hg, hl, GState.written]
    · simp [wrote, List.getElem?_set_ne hji]
  · by_cases hji : j = i
    · subst hji
      have hl := (getElem?_lt_of_inv hi hg).1
      simp [wrote, hg, hl, GState.written]
    · simp [wrote, hji, List.getElem?_set_ne hji]
  · by_cases hji : j = i
    · subst hji
      have hl := (getElem?_lt_of_inv hi hg).1
      simp [wrote, hg, hl, GState.written]
    · simp [wrote, List.getElem?_set_ne hji]
  all_goals simp [wrote]

theorem wrote_exec {s t : State} {as : List Action} (hi : Inv funcs s)
    (h : exec cfg funcs env s as = some t) (i : Nat) :
    wrote s i + as.count (.d (.send i)) = wrote t i := by
  induction as generalizing s with
  | nil =>
    simp only [exec] at h
    cases h
    simp
  | cons a as ih =>
    simp only [exec] at h
    split at h
    · rename_i s1 h1
      have hi1 := Inv_step hi h1
      have := ih hi1 h
      cases a with
      | tick =>
        rcases (step_cases h1).2 with ⟨b, hb, -⟩ | ⟨-, rfl⟩
        · cases hb
        · rw [List.count_cons]
          simp
          exact this
      | d a =>
        have h2 := wrote_stepD hi (by rw [← step_d (step_cases h1).1]; exact h1) i
        rw [List.count_cons]
        by_cases ha : a = .send i
        · subst ha
          simp at h2 ⊢
          omega
        · have hne : (Action.d a == Action.d (DAct.send i)) = false := by
            simp [ha]
          simp [ha] at h2
          rw [hne]
          simp
          omega
    · cases h

/-- C9 (the completion channel never fills). In every execution of `Run` with
`N = len(funcs)` tasks: each goroutine sends on `errChan` at most once; the
channel holds at most `N` results, its capacity; a goroutine that is about to
send finds room, so that its send can run at once, whether or not the
supervisor has read anything. -/
theorem errChan_never_full (cfg : Config) (funcs : List Func) (env : Env)
    (as : List Action) (s : State)
    (h : exec cfg funcs env (Run.init funcs) as = some s) :
    (∀ i, as.count (.d (.send i)) ≤ 1) ∧
    s.errChan.length ≤ funcs.length ∧
    ∀ (i : Nat) (e : error), s.gs[i]? = some (.sending e) →
      s.errChan.length < funcs.length ∧
        (stepD cfg funcs env s (.send i)).isSome = true := by
  have hi : Inv funcs s := Inv_reachable ⟨as, h⟩
  refine ⟨?_, ?_, ?_⟩
  · intro i
    have h1 := wrote_exec (Inv_init funcs) h i
    have h2 := wrote_le_one s i
    omega
  · have h1 := hi.chan
    have h2 := List.countP_le_length GState.written (l := s.gs)
    have h3 := hi.len
    omega
  · intro i e hg
    have hroom := room_of_sending hi hg
    exact ⟨hroom, by simp [stepD, hg, hroom]⟩

theorem errChan_never_full_witness :
    (∀ i, ([.d (.ret 0), .d (.ret 1), .d (.send 0), .d (.ret 2), .d (.send 1)] :
        List Action).count (.d (.send i)) ≤ 1) ∧
    (⟨0, 0, none, [.sent, .sent, .sending none], [none, none], 3, .recv, .notStarted⟩ :
        State).errChan.length
      ≤ ([fun _ _ => some none, fun _ _ => some none, fun _ _ => some none] :
        List Func).length ∧
    ∀ (i : Nat) (e : error),
      (⟨0, 0, none, [.sent, .sent, .sending none], [none, none], 3, .recv, .notStarted⟩ :
        State).gs[i]? = some (.sending e) →
      (⟨0, 0, none, [.sent, .sent, .sending none], [none, none], 3, .recv, .notStarted⟩ :
        State).errChan.length
        < ([fun _ _ => some none, fun _ _ => some none, fun _ _ => some none] :
          List Func).length ∧
      (stepD { } [fun _ _ => some none, fun _ _ => some none, fun _ _ => some none] ⟨[]⟩
        ⟨0, 0, none, [.sent, .sent, .sending none], [none, none], 3, .recv, .notStarted⟩
        (.send i)).isSome = true :=
  errChan_never_full { } [fun _ _ => some none, fun _ _ => some none, fun _ _ => some none]
    ⟨[]⟩ [.d (.ret 0), .d (.ret 1), .d (.send 0), .d (.ret 2), .d (.send 1)]
    ⟨0, 0, none, [.sent, .sent, .sending none], [none, none], 3, .recv, .notStarted⟩ rfl

end Channel

end graceful

namespace server

/-- C10 (default port), evaluated on the code. With `Port == 0` the call
`validate.Struct(c)` of line 50 rejects the configuration, the field being
tagged `required`, so `New` returns the validation error and no server; when
`New` does return a server, `Port` was not zero and is kept: the default of
lines 62-64 is never applied. -/
theorem New_port_zero (address : String) (d : Dependencies) :
    New { Address := address, Port := 0 } d = .error ⟨"Port", "required"⟩ ∧
    ∀ (c : Config) (d2 : Dependencies),
      match New c d2 with
      | .ok srv => c.Port ≠ 0 ∧ srv.c.Port = c.Port
      | .error _ => True := by
  constructor
  · simp [New, validateConfig, requiredInt]
  · intro c d2
    unfold New
    by_cases hp : c.Port = 0
    · simp [validateConfig, requiredInt, hp]
    · simp only [validateConfig, requiredInt, bne_iff_ne, ne_eq, hp, not_false_eq_true,
        if_true, if_false]
      cases validateDependencies d2 with
      | some err => simp
      | none => simp [hp]

end server
